import Mathlib

/-!
# Verification of the schoolsoft schedule reconstruction engine

Shallow embedding, in Lean 4, of the schedule-related parts of the
`schoolsoft` Rust client library:

* `WeekRange` (src/utils.rs, `impl Iterator for WeekRange`): the textual
  week-range parser;
* `Occasion::try_from` (src/schedule.rs): resolution of a raw occasion
  record into an `Occasion` via the 54-slot boolean week mask;
* `Schedule::from` (src/schedule.rs): construction of the empty 53-week
  calendar around an anchor date, including the year-straddle split;
* `Schedule::deserialize` (src/schedule.rs): the placement pass folding
  occasions into the calendar.

Rust `u8`/`u64` values are modelled as `Nat` (with explicit bounds checks
where the source indexes arrays), fallible operations as `Option`/`Except`,
and panics (array out-of-bounds, `unwrap` of `None`) as `Option.none` of the
surrounding computation.
-/

/-! ## The week-range parser (src/utils.rs, `WeekRange`)

`WeekRange` is an iterator over a `Chars` cursor plus an optional pending
`Range<u8>`.  We model the iterator state as the list of remaining
characters together with the optional pending range `(lo, hi)` (meaning
the Rust half-open range `lo..hi`), and one `next()` call as a pure
function from states to an optional yielded value plus successor state. -/

/-- Model of Rust `str::parse::<u8>` on a list of characters: an optional
leading `'+'`, then one or more ASCII digits, value at most 255.
Anything else (empty input, other characters, overflow) fails. -/
def parseU8 (s : List Char) : Option Nat :=
  let digits := if s.head? = some '+' then s.tail else s
  if digits.isEmpty then none
  else if digits.all (fun c => c.isDigit) then
    let v := digits.foldl (fun a c => a * 10 + (c.toNat - 48)) 0
    if v ≤ 255 then some v else none
  else none

/-- The `while let Some(c) = iter.next()` loop body of `WeekRange::next`
(src/utils.rs lines 81-94).  Arguments: remaining input, the accumulator
string `temp`, and the current `start` value.  Returns `none` when the loop
hits `temp.parse().ok()?` failure at a `'-'`, otherwise the final `temp`,
`start` and the input remaining after the loop.

Note the comma handling of the source: on `','` the iterator is advanced
once more; only when that second character is exactly `' '` does the loop
break.  Otherwise the `','` is pushed onto `temp` and the second character
is silently discarded.

The comma case inspects the next character as well, so the model matches on
the first two characters: `[c]` is the case where `iter.next()` inside the
`','` test returns `None` (the `','` is pushed and the loop then exits). -/
def scanLoop : List Char → List Char → Nat → Option (List Char × Nat × List Char)
  | [], temp, start => some (temp, start, [])
  | [c], temp, start =>
    if c = '-' then
      match parseU8 temp with
      | none => none
      | some v => scanLoop [] [] v
    else if c = ',' then scanLoop [] (temp ++ [',']) start
    else scanLoop [] (temp ++ [c]) start
  | c :: c2 :: rest2, temp, start =>
    if c = '-' then
      match parseU8 temp with
      | none => none
      | some v => scanLoop (c2 :: rest2) [] v
    else if c = ',' then
      if c2 = ' ' then some (temp, start, rest2)
      else scanLoop rest2 (temp ++ [',']) start
    else scanLoop (c2 :: rest2) (temp ++ [c]) start

/-- The token-scanning tail of `WeekRange::next` (src/utils.rs lines 75-105):
run the character loop, parse `temp` as the `end` value, and either yield a
single value (`start == 0` sentinel) or yield `start` and stash the pending
range `start+1 .. end+1`.

The source computes `start + 1` and `end + 1` in `u8` (utils.rs line 102),
so at `end = 255` (or `start = 255`) the increment overflows: debug builds
panic there, release builds wrap modulo 256 — `"254-255"` stashes the empty
range `255..0` and so collects to just `[254]`.  The model takes the
wrapped (release) semantics, hence the `% 256`; theorems quantifying over
well-formed tokens restrict range bounds to 254 so that they hold of both
build profiles. -/
def wrNextToken (input : List Char) :
    Option (Nat × List Char × Option (Nat × Nat)) :=
  match scanLoop input [] 0 with
  | none => none
  | some (temp, start, rest) =>
    match parseU8 temp with
    | none => none
    | some e =>
      if start = 0 then some (e, rest, none)
      else some (start, rest, some ((start + 1) % 256, (e + 1) % 256))

/-- One full `WeekRange::next` call (src/utils.rs lines 66-105): first drain
the pending `Range` if any (Rust `Range::next` yields `lo` and increments it
while `lo < hi`), otherwise scan the next token. -/
def wrNext (input : List Char) (range : Option (Nat × Nat)) :
    Option (Nat × List Char × Option (Nat × Nat)) :=
  match range with
  | some (lo, hi) =>
    if lo < hi then some (lo, input, some (lo + 1, hi))
    else wrNextToken input
  | none => wrNextToken input

/-- Collect the iterator's yields, fuel-bounded.  One unit of fuel is one
`next()` call; `weekRangeList` below supplies enough fuel for any input. -/
def runFuel : Nat → List Char → Option (Nat × Nat) → List Nat
  | 0, _, _ => []
  | fuel + 1, input, range =>
    match wrNext input range with
    | none => []
    | some (v, input', range') => v :: runFuel fuel input' range'

/-- `WeekRange::from(s).collect::<Vec<u8>>()`: all week numbers yielded for
input `s`.  Every `next()` call either consumes at least one input character
or shrinks the pending range (whose length is at most 255 and which is
created only by consuming at least one character), so
`300 * (length + 1)` fuel is more than any input can use. -/
def weekRangeList (s : String) : List Nat :=
  runFuel (300 * (s.data.length + 1)) s.data none

/-! ### Token-level description of week-range inputs

To state the universally-quantified parser claims we describe inputs as
lists of tokens rendered with the `", "` separator.  A token is a single
week number, an inclusive dash range, or (for the truncation claim) an
arbitrary raw character sequence. -/

/-- The ASCII digit character for `d < 10`. -/
def digitChar (d : Nat) : Char := Char.ofNat (48 + d)

/-- Decimal rendering of a week number (defined for `n ≤ 999`, which covers
every `u8` value a token can denote). -/
def renderNat (n : Nat) : List Char :=
  if n < 10 then [digitChar n]
  else if n < 100 then [digitChar (n / 10), digitChar (n % 10)]
  else [digitChar (n / 100), digitChar (n / 10 % 10), digitChar (n % 10)]

/-- A token of the week-range grammar. -/
inductive Tok where
  | single (n : Nat)
  | range (a b : Nat)
  | raw (cs : List Char)

/-- The characters a token is written as. -/
def tokChars : Tok → List Char
  | .single n => renderNat n
  | .range a b => renderNat a ++ '-' :: renderNat b
  | .raw cs => cs

/-- The week numbers a well-formed token denotes (a raw token denotes
nothing). -/
def tokWeeks : Tok → List Nat
  | .single n => [n]
  | .range a b => List.range' a (b - a + 1)
  | .raw _ => []

/-- Well-formedness of a token: a positive `u8` value, or a dash range with
positive ordered bounds at most 254.  Bound 255 is excluded from the
well-formed grammar because the source's `end + 1` then overflows its `u8`
(utils.rs line 102): debug builds panic, release builds wrap the pending
range to the empty `255..0` — behaviour pinned by separate concrete
statements rather than by this grammar. -/
def wfTok : Tok → Bool
  | .single n => 1 ≤ n && n ≤ 255
  | .range a b => 1 ≤ a && (a ≤ b && b ≤ 254)
  | .raw _ => false

/-- Render a token list, separating consecutive tokens by `", "`. -/
def renderToks : List Tok → List Char
  | [] => []
  | [t] => tokChars t
  | t :: ts => tokChars t ++ ',' :: ' ' :: renderToks ts

/-- All week numbers denoted by a token list. -/
def toksWeeks (ts : List Tok) : List Nat := ts.flatMap tokWeeks

/-- A malformed token in the sense of the spec: either non-numeric text —
any dash- and comma-free character sequence on which `str::parse::<u8>`
fails, covering mixed text such as `"1x"`, pure text such as `"x"`, and
out-of-`u8`-range numerals such as `"300"` — or a dangling dash: a
parseable prefix followed by a trailing `'-'`, such as `"12-"`. -/
def badTok (cs : List Char) : Prop :=
  ((∀ c ∈ cs, c ≠ '-' ∧ c ≠ ',') ∧ parseU8 cs = none) ∨
  (∃ ds v, (∀ c ∈ ds, c ≠ '-' ∧ c ≠ ',') ∧ parseU8 ds = some v ∧ cs = ds ++ ['-'])

/-! ### Parser correctness lemmas -/

set_option maxRecDepth 4000

theorem parseU8_renderNat_fin :
    ∀ n : Fin 256, parseU8 (renderNat n.val) = some n.val := by decide

theorem parseU8_renderNat {n : Nat} (h : n ≤ 255) :
    parseU8 (renderNat n) = some n := parseU8_renderNat_fin ⟨n, by omega⟩

theorem renderNat_digits_fin :
    ∀ n : Fin 256, (renderNat n.val).all (fun c => c.isDigit) = true := by decide

theorem renderNat_digits {n : Nat} (h : n ≤ 255) :
    ∀ c ∈ renderNat n, c.isDigit = true := by
  have := renderNat_digits_fin ⟨n, by omega⟩
  simpa [List.all_eq_true] using this

theorem digit_not_special {c : Char} (h : c.isDigit = true) :
    c ≠ '-' ∧ c ≠ ',' := by
  constructor <;> rintro rfl <;> simp [Char.isDigit] at h

theorem scanLoop_nil (temp : List Char) (start : Nat) :
    scanLoop [] temp start = some (temp, start, []) := rfl

/-- Step equation for a plain (non-dash, non-comma) leading character. -/
theorem scanLoop_plain {c : Char} (hd : c ≠ '-') (hc : c ≠ ',')
    (rest temp : List Char) (start : Nat) :
    scanLoop (c :: rest) temp start = scanLoop rest (temp ++ [c]) start := by
  cases rest with
  | nil =>
    rw [show scanLoop [c] temp start =
        if c = '-' then
          (match parseU8 temp with
           | none => none
           | some v => scanLoop [] [] v)
        else if c = ',' then scanLoop [] (temp ++ [',']) start
        else scanLoop [] (temp ++ [c]) start from rfl, if_neg hd, if_neg hc]
  | cons c2 rest2 =>
    rw [show scanLoop (c :: c2 :: rest2) temp start =
        if c = '-' then
          (match parseU8 temp with
           | none => none
           | some v => scanLoop (c2 :: rest2) [] v)
        else if c = ',' then
          (if c2 = ' ' then some (temp, start, rest2)
           else scanLoop rest2 (temp ++ [',']) start)
        else scanLoop (c2 :: rest2) (temp ++ [c]) start from rfl, if_neg hd, if_neg hc]

/-- Characters the scanner treats as plain text are simply appended to
`temp`. -/
theorem scanLoop_append_plain :
    ∀ (cs : List Char), (∀ c ∈ cs, c ≠ '-' ∧ c ≠ ',') →
    ∀ (rest temp : List Char) (start : Nat),
    scanLoop (cs ++ rest) temp start = scanLoop rest (temp ++ cs) start := by
  intro cs
  induction cs with
  | nil => intro _ rest temp start; simp
  | cons c cs ih =>
    intro h rest temp start
    have hc := h c (by simp)
    have hcs : ∀ c' ∈ cs, c' ≠ '-' ∧ c' ≠ ',' := fun c' hc' => h c' (by simp [hc'])
    rw [List.cons_append, scanLoop_plain hc.1 hc.2, ih hcs rest (temp ++ [c]) start]
    simp

theorem scanLoop_sep (temp : List Char) (start : Nat) (rest : List Char) :
    scanLoop (',' :: ' ' :: rest) temp start = some (temp, start, rest) := by
  rw [scanLoop]
  rfl

theorem scanLoop_dash (temp : List Char) (start : Nat) (rest : List Char) :
    scanLoop ('-' :: rest) temp start =
      match parseU8 temp with
      | none => none
      | some v => scanLoop rest [] v := by
  cases rest with
  | nil => rw [scanLoop]; rfl
  | cons c2 rest2 => rw [scanLoop]; rfl

/-- The input remaining after a token is either the `", "` separator
followed by the rest, or nothing (last token of the string). -/
def SepEnd (s r : List Char) : Prop :=
  s = ',' :: ' ' :: r ∨ (s = [] ∧ r = [])

theorem scanLoop_sepEnd {s r : List Char} (h : SepEnd s r)
    (temp : List Char) (start : Nat) :
    scanLoop s temp start = some (temp, start, r) := by
  rcases h with h | ⟨h1, h2⟩
  · rw [h, scanLoop_sep]
  · rw [h1, h2, scanLoop_nil]

theorem renderNat_plain {n : Nat} (h : n ≤ 255) :
    ∀ c ∈ renderNat n, c ≠ '-' ∧ c ≠ ',' :=
  fun c hc => digit_not_special (renderNat_digits h c hc)

theorem wrNextToken_nil : wrNextToken [] = none := rfl

/-- Scanning a rendered single-number token yields that number with no
pending range. -/
theorem wrNextToken_single {n : Nat} (h255 : n ≤ 255)
    {s r : List Char} (hs : SepEnd s r) :
    wrNextToken (renderNat n ++ s) = some (n, r, none) := by
  rw [wrNextToken, scanLoop_append_plain (renderNat n) (renderNat_plain h255) s [] 0,
    List.nil_append, scanLoop_sepEnd hs]
  simp [parseU8_renderNat h255]

/-- Scanning a rendered dash-range token yields the start bound and stashes
the pending range `start+1 .. end+1`; with both bounds at most 254 the
`u8` increments do not wrap. -/
theorem wrNextToken_range {a b : Nat} (h1 : 1 ≤ a) (ha : a ≤ 254) (hb : b ≤ 254)
    {s r : List Char} (hs : SepEnd s r) :
    wrNextToken (renderNat a ++ '-' :: (renderNat b ++ s)) =
      some (a, r, some (a + 1, b + 1)) := by
  have ha' : a ≤ 255 := by omega
  have hb' : b ≤ 255 := by omega
  rw [wrNextToken,
    scanLoop_append_plain (renderNat a) (renderNat_plain ha') ('-' :: (renderNat b ++ s)) [] 0,
    List.nil_append, scanLoop_dash, parseU8_renderNat ha']
  rw [show (match some a with
        | none => none
        | some v => scanLoop (renderNat b ++ s) [] v) =
      scanLoop (renderNat b ++ s) [] a from rfl,
    scanLoop_append_plain (renderNat b) (renderNat_plain hb') s [] a,
    List.nil_append, scanLoop_sepEnd hs]
  have h0 : a ≠ 0 := by omega
  simp [parseU8_renderNat hb', h0, Nat.mod_eq_of_lt (show a + 1 < 256 by omega),
    Nat.mod_eq_of_lt (show b + 1 < 256 by omega)]

theorem runFuel_noRange {lo hi : Nat} (h : ¬ lo < hi) (fuel : Nat)
    (input : List Char) :
    runFuel fuel input (some (lo, hi)) = runFuel fuel input none := by
  cases fuel with
  | zero => rfl
  | succ f =>
    show (match wrNext input (some (lo, hi)) with
          | none => []
          | some (v, input', range') => v :: runFuel f input' range') = _
    rw [wrNext, if_neg h]
    rfl

/-- Draining a pending range yields its elements, one `next()` call (one
unit of fuel) each. -/
theorem runFuel_range :
    ∀ (k : Nat) (lo fuel : Nat) (input : List Char), k ≤ fuel →
    runFuel fuel input (some (lo, lo + k)) =
      List.range' lo k ++ runFuel (fuel - k) input none := by
  intro k
  induction k with
  | zero =>
    intro lo fuel input _
    rw [runFuel_noRange (by omega)]
    simp
  | succ k ih =>
    intro lo fuel input hk
    obtain ⟨f, rfl⟩ : ∃ f, fuel = f + 1 := ⟨fuel - 1, by omega⟩
    show (match wrNext input (some (lo, lo + (k + 1))) with
          | none => []
          | some (v, input', range') => v :: runFuel f input' range') = _
    rw [wrNext, if_pos (by omega)]
    have hred : (match some (lo, input, some (lo + 1, lo + (k + 1))) with
          | none => ([] : List Nat)
          | some (v, input', range') => v :: runFuel f input' range') =
        lo :: runFuel f input (some (lo + 1, lo + (k + 1))) := rfl
    rw [hred, show lo + (k + 1) = lo + 1 + k by omega, ih (lo + 1) f input (by omega),
      List.range'_succ, show f + 1 - (k + 1) = f - k by omega]
    simp

theorem wrNext_none (input : List Char) : wrNext input none = wrNextToken input := rfl

theorem runFuel_succ (fuel : Nat) (input : List Char) (range : Option (Nat × Nat)) :
    runFuel (fuel + 1) input range =
      match wrNext input range with
      | none => []
      | some (v, input', range') => v :: runFuel fuel input' range' := rfl

theorem renderToks_cons (t : Tok) (ts : List Tok) :
    ∃ s, renderToks (t :: ts) = tokChars t ++ s ∧ SepEnd s (renderToks ts) := by
  cases ts with
  | nil => exact ⟨[], by simp [renderToks], Or.inr ⟨rfl, rfl⟩⟩
  | cons u us => exact ⟨',' :: ' ' :: renderToks (u :: us), rfl, Or.inl rfl⟩

theorem renderToks_cons_of_ne_nil (t : Tok) {ts : List Tok} (h : ts ≠ []) :
    renderToks (t :: ts) = tokChars t ++ ',' :: ' ' :: renderToks ts := by
  cases ts with
  | nil => exact absurd rfl h
  | cons u us => rfl

/-- Main parser correctness lemma: a rendering of well-formed tokens parses
to exactly the denoted week numbers, given sufficient fuel, and the fuel
used is one unit per yielded number. -/
theorem runFuel_renderToks :
    ∀ (ts : List Tok) (fuel : Nat), ts.all wfTok = true →
    (toksWeeks ts).length + 1 ≤ fuel →
    runFuel fuel (renderToks ts) none = toksWeeks ts := by
  intro ts
  induction ts with
  | nil =>
    intro fuel _ hfuel
    obtain ⟨f, rfl⟩ : ∃ f, fuel = f + 1 := ⟨fuel - 1, by omega⟩
    rfl
  | cons t ts ih =>
    intro fuel hwf hfuel
    rw [List.all_cons, Bool.and_eq_true] at hwf
    obtain ⟨s, hrender, hsep⟩ := renderToks_cons t ts
    obtain ⟨f, rfl⟩ : ∃ f, fuel = f + 1 := ⟨fuel - 1, by omega⟩
    rw [hrender]
    cases t with
    | raw cs => simp [wfTok] at hwf
    | single n =>
      rw [wfTok, Bool.and_eq_true, decide_eq_true_eq, decide_eq_true_eq] at hwf
      have hstep : wrNext (tokChars (Tok.single n) ++ s) none =
          some (n, renderToks ts, none) := by
        rw [wrNext_none, show tokChars (Tok.single n) = renderNat n from rfl]
        exact wrNextToken_single hwf.1.2 hsep
      rw [runFuel_succ, hstep]
      have hlen : toksWeeks (Tok.single n :: ts) = n :: toksWeeks ts := rfl
      rw [hlen] at hfuel ⊢
      simp only [List.length_cons] at hfuel
      have hred : (match some (n, renderToks ts, none) with
            | none => ([] : List Nat)
            | some (v, input', range') => v :: runFuel f input' range') =
          n :: runFuel f (renderToks ts) none := rfl
      rw [hred, ih f hwf.2 (by omega)]
    | range a b =>
      rw [wfTok, Bool.and_eq_true, Bool.and_eq_true, decide_eq_true_eq, decide_eq_true_eq,
        decide_eq_true_eq] at hwf
      obtain ⟨h1, hab, hb⟩ := hwf.1
      have hstep : wrNext (tokChars (Tok.range a b) ++ s) none =
          some (a, renderToks ts, some (a + 1, b + 1)) := by
        rw [wrNext_none,
          show tokChars (Tok.range a b) ++ s = renderNat a ++ '-' :: (renderNat b ++ s) by
            simp [tokChars]]
        exact wrNextToken_range h1 (by omega) hb hsep
      rw [runFuel_succ, hstep]
      have hlen : toksWeeks (Tok.range a b :: ts) =
          List.range' a (b - a + 1) ++ toksWeeks ts := rfl
      rw [hlen] at hfuel ⊢
      rw [List.length_append, List.length_range'] at hfuel
      have hred : (match some (a, renderToks ts, some (a + 1, b + 1)) with
            | none => ([] : List Nat)
            | some (v, input', range') => v :: runFuel f input' range') =
          a :: runFuel f (renderToks ts) (some (a + 1, b + 1)) := rfl
      rw [hred, show b + 1 = a + 1 + (b - a) by omega,
        runFuel_range (b - a) (a + 1) f (renderToks ts) (by omega),
        ih (f - (b - a)) hwf.2 (by omega), show b - a + 1 = (b - a) + 1 by omega,
        List.range'_succ]
      simp

/-- Decomposition: running on well-formed tokens followed by more tokens
first yields the well-formed tokens' weeks, consuming one unit of fuel per
week, then continues on the rendered remainder. -/
theorem runFuel_renderToks_append :
    ∀ (ts us : List Tok) (fuel : Nat), us ≠ [] → ts.all wfTok = true →
    (toksWeeks ts).length + 1 ≤ fuel →
    runFuel fuel (renderToks (ts ++ us)) none =
      toksWeeks ts ++ runFuel (fuel - (toksWeeks ts).length) (renderToks us) none := by
  intro ts
  induction ts with
  | nil => intro us fuel _ _ _; simp [toksWeeks]
  | cons t ts ih =>
    intro us fuel hus hwf hfuel
    rw [List.all_cons, Bool.and_eq_true] at hwf
    obtain ⟨f, rfl⟩ : ∃ f, fuel = f + 1 := ⟨fuel - 1, by omega⟩
    have htail : ts ++ us ≠ [] := by simp [hus]
    rw [List.cons_append, renderToks_cons_of_ne_nil t htail]
    cases t with
    | raw cs => simp [wfTok] at hwf
    | single n =>
      rw [wfTok, Bool.and_eq_true, decide_eq_true_eq, decide_eq_true_eq] at hwf
      have hstep : wrNext (tokChars (Tok.single n) ++ ',' :: ' ' :: renderToks (ts ++ us))
          none = some (n, renderToks (ts ++ us), none) := by
        rw [wrNext_none, show tokChars (Tok.single n) = renderNat n from rfl]
        exact wrNextToken_single hwf.1.2 (Or.inl rfl)
      rw [runFuel_succ, hstep]
      have hred : (match some (n, renderToks (ts ++ us), none) with
            | none => ([] : List Nat)
            | some (v, input', range') => v :: runFuel f input' range') =
          n :: runFuel f (renderToks (ts ++ us)) none := rfl
      have hlen : toksWeeks (Tok.single n :: ts) = n :: toksWeeks ts := rfl
      rw [hlen] at hfuel ⊢
      simp only [List.length_cons] at hfuel
      rw [hred, ih us f hus hwf.2 (by omega)]
      simp only [List.length_cons, List.cons_append]
      rw [show f + 1 - (toksWeeks ts).length.succ = f - (toksWeeks ts).length by omega]
    | range a b =>
      rw [wfTok, Bool.and_eq_true, Bool.and_eq_true, decide_eq_true_eq, decide_eq_true_eq,
        decide_eq_true_eq] at hwf
      obtain ⟨h1, hab, hb⟩ := hwf.1
      have hstep : wrNext (tokChars (Tok.range a b) ++ ',' :: ' ' :: renderToks (ts ++ us))
          none = some (a, renderToks (ts ++ us), some (a + 1, b + 1)) := by
        rw [wrNext_none,
          show tokChars (Tok.range a b) ++ ',' :: ' ' :: renderToks (ts ++ us) =
            renderNat a ++ '-' :: (renderNat b ++ ',' :: ' ' :: renderToks (ts ++ us)) by
              simp [tokChars]]
        exact wrNextToken_range h1 (by omega) hb (Or.inl rfl)
      rw [runFuel_succ, hstep]
      have hred : (match some (a, renderToks (ts ++ us), some (a + 1, b + 1)) with
            | none => ([] : List Nat)
            | some (v, input', range') => v :: runFuel f input' range') =
          a :: runFuel f (renderToks (ts ++ us)) (some (a + 1, b + 1)) := rfl
      have hlen : toksWeeks (Tok.range a b :: ts) =
          List.range' a (b - a + 1) ++ toksWeeks ts := rfl
      rw [hlen] at hfuel ⊢
      rw [List.length_append, List.length_range'] at hfuel
      rw [hred, show b + 1 = a + 1 + (b - a) by omega,
        runFuel_range (b - a) (a + 1) f (renderToks (ts ++ us)) (by omega),
        ih us (f - (b - a)) hus hwf.2 (by omega),
        show b - a + 1 = (b - a) + 1 by omega, List.range'_succ]
      simp only [List.length_append, List.length_range', List.cons_append, List.append_assoc]
      rw [show f - (b - a) - (toksWeeks ts).length = f + 1 - (b - a + 1 + (toksWeeks ts).length)
        by omega]
      have hlen2 : (a :: (List.range' (a + 1) (b - a) ++ toksWeeks ts)).length =
          b - a + 1 + (toksWeeks ts).length := by
        simp [List.length_range']
        omega
      rw [hlen2]

theorem parseU8_nonNumeric {cs : List Char} (hne : cs ≠ [])
    (h : ∀ c ∈ cs, ¬(c.isDigit = true) ∧ c ≠ '+') : parseU8 cs = none := by
  obtain ⟨c, cs', rfl⟩ := List.exists_cons_of_ne_nil hne
  have hplus : ¬((c :: cs').head? = some '+') := by
    simp only [List.head?_cons, Option.some.injEq]
    exact (h c (by simp)).2
  have hdig : ((c :: cs').all fun c => c.isDigit) = false := by
    simp only [List.all_cons, Bool.and_eq_false_iff]
    exact Or.inl (by simpa using (h c (by simp)).1)
  rw [parseU8]
  simp only [if_neg hplus, hdig]
  simp

theorem wrNextToken_bad {m : List Char} (hm : badTok m) {s r : List Char}
    (hs : SepEnd s r) : wrNextToken (m ++ s) = none := by
  rcases hm with ⟨hplain, hfail⟩ | ⟨ds, v, hplain, hok, rfl⟩
  · rw [wrNextToken, scanLoop_append_plain m hplain s [] 0, List.nil_append,
      scanLoop_sepEnd hs]
    simp [hfail]
  · rw [wrNextToken,
      show (ds ++ ['-']) ++ s = ds ++ '-' :: s by simp,
      scanLoop_append_plain ds hplain ('-' :: s) [] 0,
      List.nil_append, scanLoop_dash, hok]
    rw [show (match some v with
          | none => none
          | some v' => scanLoop s [] v') = scanLoop s [] v from rfl,
      scanLoop_sepEnd hs]
    rfl

/-- Once the scanner reaches a malformed token, the iteration ends: nothing
after it is yielded, whatever follows. -/
theorem runFuel_badHead (m : List Char) (hm : badTok m) (us : List Tok) (fuel : Nat) :
    runFuel fuel (renderToks (Tok.raw m :: us)) none = [] := by
  obtain ⟨s, hrender, hsep⟩ := renderToks_cons (Tok.raw m) us
  rw [hrender, show tokChars (Tok.raw m) = m from rfl]
  cases fuel with
  | zero => rfl
  | succ f => rw [runFuel_succ, wrNext_none, wrNextToken_bad hm hsep]

theorem renderNat_length_pos (n : Nat) : 1 ≤ (renderNat n).length := by
  rw [renderNat]
  split
  · simp
  · split <;> simp

theorem tokChars_length_pos (t : Tok) : 1 ≤ (tokChars t).length ∨ ∃ cs, t = Tok.raw cs := by
  cases t with
  | single n => exact Or.inl (renderNat_length_pos n)
  | range a b => exact Or.inl (by simp [tokChars]; omega)
  | raw cs => exact Or.inr ⟨cs, rfl⟩

theorem tokWeeks_length_le {t : Tok} (h : wfTok t = true) : (tokWeeks t).length ≤ 255 := by
  cases t with
  | single n => simp [tokWeeks]
  | range a b =>
    rw [wfTok, Bool.and_eq_true, Bool.and_eq_true, decide_eq_true_eq, decide_eq_true_eq,
      decide_eq_true_eq] at h
    simp [tokWeeks]
    omega
  | raw cs => simp [wfTok] at h

theorem renderToks_length_cons (t : Tok) (ts : List Tok) :
    (tokChars t).length + (renderToks ts).length ≤ (renderToks (t :: ts)).length := by
  cases ts with
  | nil => simp [renderToks]
  | cons u us =>
    simp [renderToks_cons_of_ne_nil t (List.cons_ne_nil u us)]
    omega

/-- Enough fuel: the fuel `weekRangeList` supplies dominates the number of
weeks any well-formed token list can denote. -/
theorem toksWeeks_fuel_le :
    ∀ ts : List Tok, ts.all wfTok = true →
    (toksWeeks ts).length + 1 ≤ 300 * ((renderToks ts).length + 1) := by
  intro ts
  induction ts with
  | nil => simp [toksWeeks, renderToks]
  | cons t ts ih =>
    intro hwf
    rw [List.all_cons, Bool.and_eq_true] at hwf
    have h1 : (toksWeeks (t :: ts)).length = (tokWeeks t).length + (toksWeeks ts).length := by
      simp [toksWeeks]
    have h2 := tokWeeks_length_le hwf.1
    have h3 := renderToks_length_cons t ts
    have h4 : 1 ≤ (tokChars t).length := by
      rcases tokChars_length_pos t with h | ⟨cs, rfl⟩
      · exact h
      · simp [wfTok] at hwf
    have h5 := ih hwf.2
    omega

theorem renderToks_length_mono :
    ∀ (ts us : List Tok), (renderToks ts).length ≤ (renderToks (ts ++ us)).length := by
  intro ts
  induction ts with
  | nil => intro us; simp [renderToks]
  | cons t ts ih =>
    intro us
    cases ts with
    | nil =>
      cases us with
      | nil => simp
      | cons u us' =>
        rw [show ([t] : List Tok) ++ u :: us' = t :: u :: us' from rfl,
          renderToks_cons_of_ne_nil t (List.cons_ne_nil u us')]
        simp [renderToks]
    | cons t' ts' =>
      rw [renderToks_cons_of_ne_nil t (List.cons_ne_nil t' ts'), List.cons_append,
        List.cons_append, renderToks_cons_of_ne_nil t (List.cons_ne_nil t' (ts' ++ us))]
      simpa using ih us

/-- `weekRangeList` on a rendering of well-formed tokens yields exactly the
denoted week numbers. -/
theorem weekRangeList_renderToks {ts : List Tok} (h : ts.all wfTok = true) :
    weekRangeList (String.mk (renderToks ts)) = toksWeeks ts := by
  show runFuel (300 * ((renderToks ts).length + 1)) (renderToks ts) none = toksWeeks ts
  exact runFuel_renderToks ts _ h (toksWeeks_fuel_le ts h)

/-- `weekRangeList` on well-formed tokens followed by a malformed token (and
anything further) yields exactly the well-formed tokens' weeks. -/
theorem weekRangeList_truncates (ts : List Tok) (m : List Char) (us : List Tok)
    (hts : ts.all wfTok = true) (hm : badTok m) :
    weekRangeList (String.mk (renderToks (ts ++ Tok.raw m :: us))) = toksWeeks ts := by
  show runFuel (300 * ((renderToks (ts ++ Tok.raw m :: us)).length + 1))
      (renderToks (ts ++ Tok.raw m :: us)) none = toksWeeks ts
  have hfuel : (toksWeeks ts).length + 1 ≤
      300 * ((renderToks (ts ++ Tok.raw m :: us)).length + 1) := by
    have := toksWeeks_fuel_le ts hts
    have := renderToks_length_mono ts (Tok.raw m :: us)
    omega
  rw [runFuel_renderToks_append ts (Tok.raw m :: us) _ (by simp) hts hfuel,
    runFuel_badHead m hm us _, List.append_nil]

/-! ## Date model (chrono `NaiveDate`)

`NaiveDate` is modelled as a year (astronomical numbering, `Int`) plus a
0-based ordinal day within the year.  chrono's representable range is
years `-262144 ..= 262143` (`i32 >> 13` limits); a date is valid when its
year lies in that window and its ordinal is below the year's length. -/

structure NDate where
  year : Int
  ord0 : Nat
deriving DecidableEq, Repr

/-- chrono `MIN_YEAR` (= `i32::MIN >> 13`). -/
def MIN_YEAR : Int := -262144

/-- chrono `MAX_YEAR` (= `i32::MAX >> 13`). -/
def MAX_YEAR : Int := 262143

/-- Proleptic-Gregorian leap year rule. -/
def isLeap (y : Int) : Bool :=
  decide (y % 4 = 0) && (decide (y % 100 ≠ 0) || decide (y % 400 = 0))

def daysInYear (y : Int) : Nat := if isLeap y then 366 else 365

def ValidDate (d : NDate) : Prop :=
  MIN_YEAR ≤ d.year ∧ d.year ≤ MAX_YEAR ∧ d.ord0 < daysInYear d.year

instance (d : NDate) : Decidable (ValidDate d) := by
  unfold ValidDate; infer_instance

/-- chrono `NaiveDate` ordering: by year, then ordinal. -/
def dateLtb (a b : NDate) : Bool :=
  decide (a.year < b.year) || (decide (a.year = b.year) && decide (a.ord0 < b.ord0))

/-- Days from January 1 of year 1 to January 1 of year `y` (proleptic
Gregorian, negative for earlier years). -/
def daysBeforeYear (y : Int) : Int :=
  365 * (y - 1) + (y - 1).fdiv 4 - (y - 1).fdiv 100 + (y - 1).fdiv 400

/-- `Weekday::num_days_from_monday` of a date: January 1 of year 1 was a
Monday, so this is the day count since then, mod 7. -/
def weekdayNum (d : NDate) : Nat :=
  ((daysBeforeYear d.year + (d.ord0 : Int)) % 7).toNat

/-- `date.week(Weekday::Mon).first_day()`: the Monday on or before `date`. -/
def firstDayMon (d : NDate) : NDate :=
  let wd := weekdayNum d
  if wd ≤ d.ord0 then ⟨d.year, d.ord0 - wd⟩
  else ⟨d.year - 1, daysInYear (d.year - 1) + d.ord0 - wd⟩

/-- Day-count addition, fuel-based (the fuel `k + 1` always suffices when
the start ordinal is in range, since each carry strictly reduces the
residual count). -/
def addDaysVal : Nat → Int → Nat → Nat → Int × Nat
  | 0, y, d, k => (y, d + k)
  | fuel + 1, y, d, k =>
    if d + k < daysInYear y then (y, d + k)
    else addDaysVal fuel (y + 1) 0 (d + k - daysInYear y)

def addDays (dt : NDate) (k : Nat) : NDate :=
  let r := addDaysVal (k + 1) dt.year dt.ord0 k
  ⟨r.1, r.2⟩

/-- The `i`-th date yielded by `date.iter_weeks()` (start, then +7 days
each step); `none` once the date passes the representable maximum, where
the Rust iterator ends (and the source's `.next().unwrap()` panics).
Within `Schedule::from` all anchor years are valid and every requested
index stays inside the base year, so the iterator never ends early there. -/
def iterWeeksNth (start : NDate) (i : Nat) : Option NDate :=
  let r := addDays start (7 * i)
  if r.year ≤ MAX_YEAR then some r else none

/-- `checked_sub_months(Months::new(12))` specialized to a January 1 input
(the only way `Schedule::from` calls it): January 1 of the previous year,
or `None` below the representable range. -/
def checkedSubMonths12Jan1 (y : Int) : Option NDate :=
  if MIN_YEAR ≤ y - 1 then some ⟨y - 1, 0⟩ else none

/-- `checked_add_months(Months::new(12))` specialized to a January 1 input:
January 1 of the next year, or `None` above the representable range. -/
def checkedAddMonths12Jan1 (y : Int) : Option NDate :=
  if y + 1 ≤ MAX_YEAR then some ⟨y + 1, 0⟩ else none

/-! ## Schedule data model (src/schedule.rs) -/

/-- chrono `NaiveTime`: seconds of day plus nanosecond fraction (the
fraction exceeds 10^9 only for leap seconds). -/
structure NTime where
  secs : Nat
  nano : Nat
deriving DecidableEq, Repr

/-- `Lesson` (src/schedule.rs lines 33-39).  `end` is a Lean keyword, so
the field is `endT`. -/
structure Lesson where
  start : NTime
  endT : NTime
  name : String
  room : String
deriving DecidableEq, Repr

/-- `ScheduleDay` (src/schedule.rs lines 27-31). -/
structure ScheduleDay where
  date : NDate
  lessons : List Lesson
deriving DecidableEq, Repr

/-- `ScheduleWeek` (src/schedule.rs lines 14-24); the redundant `week :
NaiveWeek` field (anchor date of the week) is omitted, the seven day
containers carry all the information the claims mention. -/
structure ScheduleWeek where
  monday : ScheduleDay
  tuesday : ScheduleDay
  wednesday : ScheduleDay
  thursday : ScheduleDay
  friday : ScheduleDay
  saturday : ScheduleDay
  sunday : ScheduleDay
deriving DecidableEq, Repr

/-- `ScheduleWeek::new_empty` (src/schedule.rs lines 237-250) applied to
`date.week(Weekday::Mon)`: seven empty day containers dated Monday + 0..6.
`none` models both the `first_day` panic below the representable range and
`days.next()` returning `None` past the maximum (the `?` in the source);
since the day dates increase, checking the last day's year is equivalent to
the six sequential checks of the source. -/
def ScheduleWeek.newEmpty (anchor : NDate) : Option ScheduleWeek :=
  let fd := firstDayMon anchor
  if MIN_YEAR ≤ fd.year ∧ (addDays fd 6).year ≤ MAX_YEAR then
    some ⟨⟨fd, []⟩, ⟨addDays fd 1, []⟩, ⟨addDays fd 2, []⟩, ⟨addDays fd 3, []⟩,
      ⟨addDays fd 4, []⟩, ⟨addDays fd 5, []⟩, ⟨addDays fd 6, []⟩⟩
  else none

/-- Date of chain element `i` in the first-half branch of `Schedule::from`:
`this_year_weeks.take(26).chain(prev_year_weeks.skip(26).take(27))`; the
skip re-aligns indices so element `i ≥ 26` is `prev_year` week `i`. -/
def chainFirst (soy prev : NDate) (i : Nat) : Option NDate :=
  if i < 26 then iterWeeksNth soy i else iterWeeksNth prev i

/-- Date of chain element `i` in the second-half branch of
`Schedule::from`: `next_year_weeks.take(26).chain(this_year_weeks.skip(26).take(27))`. -/
def chainSecond (soy next : NDate) (i : Nat) : Option NDate :=
  if i < 26 then iterWeeksNth next i else iterWeeksNth soy i

/-- `Schedule::from` (src/schedule.rs lines 167-209).  `none` models a
panic (a failed `unwrap`).  `start.with_ordinal0(0)` is January 1 of the
anchor year; `start.with_ordinal(365 / 2)` is ordinal 182 (0-based 181),
always valid; the `checked_sub_months`/`checked_add_months` unwraps happen
eagerly when the iterators are built, before any week is taken. -/
def Schedule.fromDate (start : NDate) : Option (List ScheduleWeek) :=
  let soy : NDate := ⟨start.year, 0⟩
  if dateLtb start ⟨start.year, 181⟩ then
    (checkedSubMonths12Jan1 soy.year).bind fun prev =>
      (List.range 53).mapM fun i => (chainFirst soy prev i).bind ScheduleWeek.newEmpty
  else
    (checkedAddMonths12Jan1 soy.year).bind fun next =>
      (List.range 53).mapM fun i => (chainSecond soy next i).bind ScheduleWeek.newEmpty

/-! ### Date lemmas -/

theorem daysInYear_ge (y : Int) : 365 ≤ daysInYear y := by
  rw [daysInYear]; split <;> omega

theorem weekdayNum_lt (d : NDate) : weekdayNum d < 7 := by
  rw [weekdayNum]
  have h1 : 0 ≤ (daysBeforeYear d.year + (d.ord0 : Int)) % 7 :=
    Int.emod_nonneg _ (by omega)
  have h2 : (daysBeforeYear d.year + (d.ord0 : Int)) % 7 < 7 :=
    Int.emod_lt_of_pos _ (by omega)
  omega

/-- The Monday on or before a date at ordinal ≥ 6 is in the same year. -/
theorem firstDayMon_year_of_ge {d : NDate} (h : 6 ≤ d.ord0) :
    (firstDayMon d).year = d.year := by
  have := weekdayNum_lt d
  rw [firstDayMon, if_pos (by omega)]

theorem firstDayMon_year_ge (d : NDate) : d.year - 1 ≤ (firstDayMon d).year := by
  rw [firstDayMon]; split <;> simp

theorem firstDayMon_year_le (d : NDate) : (firstDayMon d).year ≤ d.year := by
  rw [firstDayMon]; split <;> simp

theorem firstDayMon_ord0_lt {d : NDate} (h : d.ord0 < daysInYear d.year) :
    (firstDayMon d).ord0 < daysInYear (firstDayMon d).year := by
  have hwd := weekdayNum_lt d
  have h365 := daysInYear_ge (d.year - 1)
  rw [firstDayMon]
  split
  · simpa using by omega
  · simp only []
    omega

theorem addDaysVal_succ (fuel : Nat) (y : Int) (d k : Nat) :
    addDaysVal (fuel + 1) y d k =
      if d + k < daysInYear y then (y, d + k)
      else addDaysVal fuel (y + 1) 0 (d + k - daysInYear y) := rfl

theorem addDays_small {y : Int} {d k : Nat} (h : d + k < daysInYear y) :
    addDays ⟨y, d⟩ k = ⟨y, d + k⟩ := by
  rw [addDays, addDaysVal_succ, if_pos h]

/-- Adding up to six days to an in-range date moves the year up by at most
one. -/
theorem addDays_six_year_le {d : NDate} (h : d.ord0 < daysInYear d.year)
    {k : Nat} (hk : k ≤ 6) : (addDays d k).year ≤ d.year + 1 := by
  rw [addDays]
  obtain ⟨f, hf⟩ : ∃ f, k + 1 = f + 1 := ⟨k, rfl⟩
  rw [hf, addDaysVal_succ]
  split
  · simp
  · obtain ⟨f2, hf2⟩ : ∃ f2, f = f2 + 1 := by
      rcases Nat.eq_zero_or_pos f with h0 | h0
      · exfalso; have := daysInYear_ge d.year; omega
      · exact ⟨f - 1, by omega⟩
    rw [hf2, addDaysVal_succ]
    have hlt : d.ord0 + k - daysInYear d.year < daysInYear (d.year + 1) := by
      have := daysInYear_ge (d.year + 1); omega
    rw [if_pos (by omega)]

theorem iterWeeksNth_eq {y : Int} {i : Nat} (hy : y ≤ MAX_YEAR) (hi : 7 * i < 365) :
    iterWeeksNth ⟨y, 0⟩ i = some ⟨y, 7 * i⟩ := by
  have h365 := daysInYear_ge y
  rw [iterWeeksNth]
  simp only [addDays_small (show 0 + 7 * i < daysInYear y by omega)]
  rw [if_pos (by simpa using hy)]
  simp

/-! ### `Option.mapM` helpers -/

theorem mapM_some_get? {α β : Type} (f : α → Option β) :
    ∀ (xs : List α) (ys : List β), xs.mapM f = some ys →
    ∀ (i : Nat) (x : α), xs.get? i = some x →
    ∃ y, f x = some y ∧ ys.get? i = some y := by
  intro xs
  induction xs with
  | nil => intro ys _ i x hx; simp at hx
  | cons a xs ih =>
    intro ys hys i x hx
    rw [List.mapM_cons] at hys
    cases hfa : f a with
    | none => rw [hfa] at hys; simp at hys
    | some b =>
      rw [hfa] at hys
      cases hrest : xs.mapM f with
      | none => rw [hrest] at hys; simp at hys
      | some bs =>
        rw [hrest] at hys
        simp only [Option.bind_some, Option.bind_eq_bind] at hys
        have hys' : ys = b :: bs := by
          simpa using hys.symm
        subst hys'
        cases i with
        | zero =>
          simp at hx
          subst hx
          exact ⟨b, hfa, rfl⟩
        | succ i =>
          simp only [List.get?_cons_succ] at hx ⊢
          exact ih bs hrest i x hx

theorem mapM_isSome {α β : Type} (f : α → Option β) :
    ∀ xs : List α, (∀ x ∈ xs, (f x).isSome = true) → (xs.mapM f).isSome = true := by
  intro xs
  induction xs with
  | nil => intro _; rfl
  | cons a xs ih =>
    intro h
    rw [List.mapM_cons]
    have ha := h a (by simp)
    cases hfa : f a with
    | none => rw [hfa] at ha; simp at ha
    | some b =>
      have hxs := ih (fun x hx => h x (by simp [hx]))
      cases hrest : xs.mapM f with
      | none => rw [hrest] at hxs; simp at hxs
      | some bs => simp [hfa, hrest]

theorem mapM_length {α β : Type} (f : α → Option β) :
    ∀ (xs : List α) (ys : List β), xs.mapM f = some ys → ys.length = xs.length := by
  intro xs
  induction xs with
  | nil =>
    intro ys h
    rw [List.mapM_nil] at h
    have : ys = [] := by simpa using h.symm
    simp [this]
  | cons a xs ih =>
    intro ys h
    rw [List.mapM_cons] at h
    cases hfa : f a with
    | none => rw [hfa] at h; simp at h
    | some b =>
      rw [hfa] at h
      cases hrest : xs.mapM f with
      | none => rw [hrest] at h; simp at h
      | some bs =>
        rw [hrest] at h
        simp only [Option.bind_some, Option.bind_eq_bind] at h
        have : ys = b :: bs := by simpa using h.symm
        subst this
        simp [ih bs hrest]

theorem dateLtb_ord_iff (a : NDate) (k : Nat) :
    dateLtb a ⟨a.year, k⟩ = true ↔ a.ord0 < k := by
  simp [dateLtb]

theorem newEmpty_monday {anchor : NDate} {w : ScheduleWeek}
    (h : ScheduleWeek.newEmpty anchor = some w) :
    w.monday.date = firstDayMon anchor := by
  simp only [ScheduleWeek.newEmpty] at h
  split at h
  · injection h with h
    subst h
    rfl
  · exact absurd h (by simp)

theorem fromDate_length {start : NDate} {ws : List ScheduleWeek}
    (h : Schedule.fromDate start = some ws) : ws.length = 53 := by
  simp only [Schedule.fromDate] at h
  split at h
  · cases hc : checkedSubMonths12Jan1 start.year with
    | none => rw [hc] at h; simp at h
    | some prev =>
      rw [hc] at h
      simp only [Option.some_bind] at h
      simpa using mapM_length _ _ _ h
  · cases hc : checkedAddMonths12Jan1 start.year with
    | none => rw [hc] at h; simp at h
    | some next =>
      rw [hc] at h
      simp only [Option.some_bind] at h
      simpa using mapM_length _ _ _ h

/-- In the first-half branch, slot `i` of the built schedule is an empty
week anchored at day `7 i` of the anchor year (front half) or of the
previous year (back half). -/
theorem fromDate_firstHalf_get {start : NDate} {ws : List ScheduleWeek}
    (hv : ValidDate start) (hfh : start.ord0 < 181)
    (h : Schedule.fromDate start = some ws) {i : Nat} {w : ScheduleWeek}
    (hi : i < 53) (hw : ws.get? i = some w) :
    ScheduleWeek.newEmpty ⟨if i < 26 then start.year else start.year - 1, 7 * i⟩ =
      some w := by
  obtain ⟨hymin, hymax, hord⟩ := hv
  simp only [Schedule.fromDate] at h
  rw [if_pos (by rw [dateLtb_ord_iff]; exact hfh)] at h
  rw [checkedSubMonths12Jan1] at h
  by_cases hmin : MIN_YEAR ≤ start.year - 1
  · rw [if_pos hmin, Option.some_bind] at h
    obtain ⟨w', hf, hg⟩ := mapM_some_get? _ _ _ h i i (by rw [List.get?_range hi])
    have hww : w' = w := by rw [hw] at hg; exact Option.some.inj hg.symm
    subst hww
    rw [chainFirst] at hf
    by_cases h26 : i < 26
    · rw [if_pos h26, iterWeeksNth_eq hymax (by omega), Option.some_bind] at hf
      rw [if_pos h26]
      exact hf
    · rw [if_neg h26, iterWeeksNth_eq (by omega) (by omega), Option.some_bind] at hf
      rw [if_neg h26]
      exact hf
  · rw [if_neg hmin] at h
    simp at h

/-- In the second-half branch, slot `i` is anchored at day `7 i` of the
next year (front half) or of the anchor year (back half). -/
theorem fromDate_secondHalf_get {start : NDate} {ws : List ScheduleWeek}
    (hv : ValidDate start) (hsh : 181 ≤ start.ord0)
    (h : Schedule.fromDate start = some ws) {i : Nat} {w : ScheduleWeek}
    (hi : i < 53) (hw : ws.get? i = some w) :
    ScheduleWeek.newEmpty ⟨if i < 26 then start.year + 1 else start.year, 7 * i⟩ =
      some w := by
  obtain ⟨hymin, hymax, hord⟩ := hv
  simp only [Schedule.fromDate] at h
  rw [if_neg (by rw [dateLtb_ord_iff]; omega)] at h
  rw [checkedAddMonths12Jan1] at h
  by_cases hmax : start.year + 1 ≤ MAX_YEAR
  · rw [if_pos hmax, Option.some_bind] at h
    obtain ⟨w', hf, hg⟩ := mapM_some_get? _ _ _ h i i (by rw [List.get?_range hi])
    have hww : w' = w := by rw [hw] at hg; exact Option.some.inj hg.symm
    subst hww
    rw [chainSecond] at hf
    by_cases h26 : i < 26
    · rw [if_pos h26, iterWeeksNth_eq hmax (by omega), Option.some_bind] at hf
      rw [if_pos h26]
      exact hf
    · rw [if_neg h26, iterWeeksNth_eq hymax (by omega), Option.some_bind] at hf
      rw [if_neg h26]
      exact hf
  · rw [if_neg hmax] at h
    simp at h

/-- C1: Year-straddle rule of `Schedule::from`.  For an anchor date in the
first half of calendar year Y (0-based ordinal below 181, i.e. day-of-year
below 182), slot 10's Monday lies in year Y and slot 40's Monday in year
Y−1; for an anchor in the second half, slot 10's Monday lies in year Y+1
and slot 40's Monday in year Y. -/
theorem schedule_from_year_straddle (start : NDate) (hv : ValidDate start)
    (ws : List ScheduleWeek) (h : Schedule.fromDate start = some ws)
    (w10 w40 : ScheduleWeek) (h10 : ws.get? 10 = some w10)
    (h40 : ws.get? 40 = some w40) :
    (start.ord0 < 181 → w10.monday.date.year = start.year ∧
      w40.monday.date.year = start.year - 1) ∧
    (181 ≤ start.ord0 → w10.monday.date.year = start.year + 1 ∧
      w40.monday.date.year = start.year) := by
  constructor
  · intro hfh
    have e10 := fromDate_firstHalf_get hv hfh h (by omega) h10
    have e40 := fromDate_firstHalf_get hv hfh h (by omega) h40
    rw [if_pos (by omega)] at e10
    rw [if_neg (by omega)] at e40
    exact ⟨by rw [newEmpty_monday e10]; exact firstDayMon_year_of_ge (by show 6 ≤ 7 * 10; omega),
      by rw [newEmpty_monday e40]; exact firstDayMon_year_of_ge (by show 6 ≤ 7 * 40; omega)⟩
  · intro hsh
    have e10 := fromDate_secondHalf_get hv hsh h (by omega) h10
    have e40 := fromDate_secondHalf_get hv hsh h (by omega) h40
    rw [if_pos (by omega)] at e10
    rw [if_neg (by omega)] at e40
    exact ⟨by rw [newEmpty_monday e10]; exact firstDayMon_year_of_ge (by show 6 ≤ 7 * 10; omega),
      by rw [newEmpty_monday e40]; exact firstDayMon_year_of_ge (by show 6 ≤ 7 * 40; omega)⟩

/-- C1 witness: April 1, 2024 (0-based ordinal 91, first half) gives slot
10's Monday in 2024 and slot 40's Monday in 2023, matching the doctest of
`Schedule::from`. -/
theorem schedule_from_year_straddle_witness :
    ∃ ws w10 w40, Schedule.fromDate ⟨2024, 91⟩ = some ws ∧
      ws.get? 10 = some w10 ∧ ws.get? 40 = some w40 ∧
      w10.monday.date.year = 2024 ∧ w40.monday.date.year = 2023 := by
  have hsome : (Schedule.fromDate ⟨2024, 91⟩).isSome = true := by decide
  obtain ⟨ws, hws⟩ := Option.isSome_iff_exists.mp hsome
  have hlen : ws.length = 53 := fromDate_length hws
  have h10 : ws.get? 10 = some (ws.get ⟨10, by omega⟩) := List.get?_eq_get (by omega)
  have h40 : ws.get? 40 = some (ws.get ⟨40, by omega⟩) := List.get?_eq_get (by omega)
  have main := schedule_from_year_straddle ⟨2024, 91⟩ (by decide) ws hws _ _ h10 h40
  obtain ⟨hy10, hy40⟩ := main.1 (by decide)
  exact ⟨ws, _, _, hws, h10, h40, by rw [hy10], by rw [hy40]; decide⟩

theorem NDate_mk_year (y : Int) (o : Nat) : (NDate.mk y o).year = y := rfl

theorem NDate_mk_ord0 (y : Int) (o : Nat) : (NDate.mk y o).ord0 = o := rfl

theorem newEmpty_isSome {anchor : NDate}
    (h1 : MIN_YEAR ≤ (firstDayMon anchor).year)
    (h2 : (addDays (firstDayMon anchor) 6).year ≤ MAX_YEAR) :
    (ScheduleWeek.newEmpty anchor).isSome = true := by
  rw [ScheduleWeek.newEmpty]
  simp only [if_pos (And.intro h1 h2)]
  rfl

/-- An empty week anchored at a valid date is constructible whenever there
is a year of slack on the needed side of the representable range. -/
theorem newEmpty_7i_isSome {y : Int} {o : Nat} (ho : o ≤ 364)
    (hlow : MIN_YEAR ≤ y - 1 ∨ (MIN_YEAR ≤ y ∧ 6 ≤ o))
    (hhigh : y + 1 ≤ MAX_YEAR ∨ (y ≤ MAX_YEAR ∧ o + 6 < 365)) :
    (ScheduleWeek.newEmpty ⟨y, o⟩).isSome = true := by
  have hdiy := daysInYear_ge y
  have hval : (⟨y, o⟩ : NDate).ord0 < daysInYear y := by
    show o < daysInYear y; omega
  have hfdval := firstDayMon_ord0_lt hval
  have hwd := weekdayNum_lt ⟨y, o⟩
  apply newEmpty_isSome
  · rcases hlow with h | ⟨h, ho6⟩
    · calc MIN_YEAR ≤ y - 1 := h
        _ ≤ (firstDayMon ⟨y, o⟩).year := firstDayMon_year_ge _
    · rw [firstDayMon_year_of_ge ho6]
      exact h
  · rcases hhigh with h | ⟨h, ho6⟩
    · calc (addDays (firstDayMon ⟨y, o⟩) 6).year
          ≤ (firstDayMon ⟨y, o⟩).year + 1 := addDays_six_year_le hfdval (by omega)
        _ ≤ y + 1 := by
          have hle : (firstDayMon ⟨y, o⟩).year ≤ y := firstDayMon_year_le _
          omega
        _ ≤ MAX_YEAR := h
    · by_cases hcase : weekdayNum ⟨y, o⟩ ≤ o
      · have hfd : firstDayMon ⟨y, o⟩ = ⟨y, o - weekdayNum ⟨y, o⟩⟩ := by
          rw [firstDayMon, if_pos hcase]
        rw [hfd, addDays_small (by omega)]
        exact h
      · have hfdy : (firstDayMon ⟨y, o⟩).year = y - 1 := by
          rw [firstDayMon, if_neg hcase]
        calc (addDays (firstDayMon ⟨y, o⟩) 6).year
            ≤ (firstDayMon ⟨y, o⟩).year + 1 := addDays_six_year_le hfdval (by omega)
          _ ≤ MAX_YEAR := by omega

/-- Away from both ends of the representable range, every unwrap in
`Schedule::from` succeeds. -/
theorem fromDate_interior_isSome (start : NDate) (hv : ValidDate start)
    (h1 : MIN_YEAR + 1 ≤ start.year) (h2 : start.year ≤ MAX_YEAR - 1) :
    (Schedule.fromDate start).isSome = true := by
  obtain ⟨hymin, hymax, hord⟩ := hv
  rw [Schedule.fromDate]
  simp only [NDate_mk_year]
  split
  · rw [checkedSubMonths12Jan1, if_pos (by omega), Option.some_bind]
    apply mapM_isSome
    intro i hi
    rw [List.mem_range] at hi
    rw [chainFirst]
    by_cases h26 : i < 26
    · rw [if_pos h26, iterWeeksNth_eq hymax (by omega), Option.some_bind]
      exact newEmpty_7i_isSome (by omega) (Or.inl (by omega))
        (Or.inr ⟨by omega, by omega⟩)
    · rw [if_neg h26, iterWeeksNth_eq (by omega) (by omega), Option.some_bind]
      exact newEmpty_7i_isSome (by omega) (Or.inr ⟨by omega, by omega⟩)
        (Or.inl (by omega))
  · rw [checkedAddMonths12Jan1, if_pos (by omega), Option.some_bind]
    apply mapM_isSome
    intro i hi
    rw [List.mem_range] at hi
    rw [chainSecond]
    by_cases h26 : i < 26
    · rw [if_pos h26, iterWeeksNth_eq (by omega) (by omega), Option.some_bind]
      exact newEmpty_7i_isSome (by omega) (Or.inl (by omega))
        (Or.inr ⟨by omega, by omega⟩)
    · rw [if_neg h26, iterWeeksNth_eq hymax (by omega), Option.some_bind]
      exact newEmpty_7i_isSome (by omega) (Or.inr ⟨by omega, by omega⟩)
        (Or.inl (by omega))

/-- C10: `Schedule::from` is panic-free for every valid anchor date at
least 12 months above the minimum and 12 months below the maximum
representable date (equivalently, anchor year strictly inside the year
range), and it does panic for some valid anchors within 12 months of the
ends: January 1 of the minimum year (the eager
`checked_sub_months(12).unwrap()` fails) and day 200 of the maximum year
(the eager `checked_add_months(12).unwrap()` fails). -/
theorem schedule_from_panic_boundary :
    (∀ start : NDate, ValidDate start → MIN_YEAR + 1 ≤ start.year →
      start.year ≤ MAX_YEAR - 1 → (Schedule.fromDate start).isSome = true) ∧
    ValidDate ⟨MIN_YEAR, 0⟩ ∧ Schedule.fromDate ⟨MIN_YEAR, 0⟩ = none ∧
    ValidDate ⟨MAX_YEAR, 200⟩ ∧ Schedule.fromDate ⟨MAX_YEAR, 200⟩ = none :=
  ⟨fromDate_interior_isSome, by decide, by decide, by decide, by decide⟩

/-- C10 witness: the interior conditions hold at April 1, 2024, and the
schedule is then built without a panic. -/
theorem schedule_from_panic_boundary_witness :
    ValidDate ⟨2024, 91⟩ ∧ MIN_YEAR + 1 ≤ (2024 : Int) ∧ (2024 : Int) ≤ MAX_YEAR - 1 ∧
    (Schedule.fromDate ⟨2024, 91⟩).isSome = true :=
  ⟨by decide, by decide, by decide,
    schedule_from_panic_boundary.1 ⟨2024, 91⟩ (by decide) (by decide) (by decide)⟩

/-- C3: WeekRangeParser reference outputs: `"13-17"` yields
`[13,14,15,16,17]`, `"11"` yields `[11]`, the 19-element compound input
parses as listed, the empty string yields `[]`, and an equal-bounds range
`"5-5"` yields `[5]`. -/
theorem weekrange_reference_outputs :
    weekRangeList "13-17" = [13, 14, 15, 16, 17] ∧
    weekRangeList "11" = [11] ∧
    weekRangeList "30-37, 39, 40-42, 44-50" =
      [30, 31, 32, 33, 34, 35, 36, 37, 39, 40, 41, 42, 44, 45, 46, 47, 48, 49, 50] ∧
    weekRangeList "" = [] ∧
    weekRangeList "5-5" = [5] :=
  ⟨by decide, by decide, by decide, by decide, by decide⟩

/-- C6: for every input consisting of well-formed tokens followed by a
malformed token — non-numeric text (any dash- and comma-free text failing
the `u8` parse, including mixed forms such as `"1x"`) or a dangling dash —
and arbitrary further tokens, the parser ends the sequence at the
malformed token, yielding exactly the weeks of the well-formed tokens
before it.  No error is raised: `weekRangeList` is a total function into
plain lists.  Well-formed ranges stop at bound 254: a range with bound 255
makes the source's `end + 1` overflow its `u8` (utils.rs line 102), a
debug-build panic; in release builds the pending range wraps to the empty
`255..0` and the same silent truncation behaviour continues around it —
the second conjunct pins `"254-255, x"` to `[254]` under that wrapped
semantics. -/
theorem weekrange_silent_truncation :
    (∀ (ts : List Tok) (m : List Char) (us : List Tok),
      ts.all wfTok = true → badTok m →
      weekRangeList (String.mk (renderToks (ts ++ Tok.raw m :: us))) = toksWeeks ts) ∧
    weekRangeList "254-255, x" = [254] :=
  ⟨fun ts m us hts hm => weekRangeList_truncates ts m us hts hm, by decide⟩

/-- C6 witness: `"1-3, x, 7"` yields exactly `[1, 2, 3]`. -/
theorem weekrange_silent_truncation_witness :
    ([Tok.range 1 3].all wfTok = true) ∧ badTok ['x'] ∧
    String.mk (renderToks ([Tok.range 1 3] ++ Tok.raw ['x'] :: [Tok.single 7])) =
      "1-3, x, 7" ∧
    weekRangeList (String.mk (renderToks ([Tok.range 1 3] ++ Tok.raw ['x'] :: [Tok.single 7]))) =
      [1, 2, 3] := by
  refine ⟨by decide, Or.inl ⟨by decide, by decide⟩, by decide, ?_⟩
  rw [weekrange_silent_truncation.1 [Tok.range 1 3] ['x'] [Tok.single 7] (by decide)
    (Or.inl ⟨by decide, by decide⟩)]
  decide

/-- C7 counterexample: the parser does NOT yield the same week numbers for
a bare comma or for comma-plus-two-spaces as it does for comma-plus-one-
space: `"11,12"` parses to `[]` and `"11,  12"` to `[11]`, while
`"11, 12"` parses to `[11, 12]`. -/
theorem weekrange_separator_counterexample :
    weekRangeList "11,12" = [] ∧ weekRangeList "11, 12" = [11, 12] ∧
    weekRangeList "11,  12" = [11] ∧
    ¬(weekRangeList "11,12" = weekRangeList "11, 12" ∧
      weekRangeList "11,  12" = weekRangeList "11, 12") :=
  ⟨by decide, by decide, by decide, by decide⟩

/-- C7 amended: the parser tolerates exactly one separator spelling —
comma followed by a single space.  Every well-formed token sequence
(single values up to 255, dash ranges with bounds up to 254) rendered with
`", "` parses to its week numbers, while a bare comma mangles the
following token (the comma is kept, the next character is dropped) and a
comma with extra whitespace leaves a leading space on the next token; both
silently truncate instead.  A range with upper bound 255 lies outside the
grammar: there the source's `u8` `end + 1` overflows (utils.rs line 102) —
a debug-build panic — and under the release-build wrap modelled here the
pending range is the empty `255..0`, so `"254-255"` yields `[254]` rather
than `[254, 255]` and `"254-255, 7"` yields `[254, 7]` (middle
conjuncts). -/
theorem weekrange_separator_exact :
    (∀ ts : List Tok, ts.all wfTok = true →
      weekRangeList (String.mk (renderToks ts)) = toksWeeks ts) ∧
    weekRangeList "254-255" = [254] ∧
    weekRangeList "254-255, 7" = [254, 7] ∧
    weekRangeList "11,12" = [] ∧ weekRangeList "11,  12" = [11] :=
  ⟨fun _ hts => weekRangeList_renderToks hts, by decide, by decide, by decide, by decide⟩

/-- C7 witness: the well-formed rendering `"11, 12"` parses to `[11, 12]`. -/
theorem weekrange_separator_exact_witness :
    String.mk (renderToks [Tok.single 11, Tok.single 12]) = "11, 12" ∧
    weekRangeList (String.mk (renderToks [Tok.single 11, Tok.single 12])) = [11, 12] := by
  refine ⟨by decide, ?_⟩
  rw [weekrange_separator_exact.1 [Tok.single 11, Tok.single 12] (by decide)]
  decide

/-! ## UUID parsing (uuid crate `Uuid::parse_str`)

`Uuid::parse_str` accepts a 32-character simple form, a 36-character
8-4-4-4-12 hyphenated form, a braced hyphenated form, and a
`urn:uuid:`-prefixed hyphenated form, all case-insensitive hex.  The
parsed value is the 16-byte array. -/

def hexVal (c : Char) : Option Nat :=
  if c.isDigit then some (c.toNat - 48)
  else if 'a' ≤ c ∧ c ≤ 'f' then some (c.toNat - 87)
  else if 'A' ≤ c ∧ c ≤ 'F' then some (c.toNat - 55)
  else none

def parseHexPairs : List Char → Option (List Nat)
  | [] => some []
  | [_] => none
  | c1 :: c2 :: rest => do
    let h1 ← hexVal c1
    let h2 ← hexVal c2
    let bs ← parseHexPairs rest
    some ((16 * h1 + h2) :: bs)

def uuidParseHyphenated (cs : List Char) : Option (List Nat) :=
  if cs.length = 36 then
    match cs.drop 8 with
    | '-' :: r2 =>
      match r2.drop 4 with
      | '-' :: r4 =>
        match r4.drop 4 with
        | '-' :: r6 =>
          match r6.drop 4 with
          | '-' :: g5 => do
            let b1 ← parseHexPairs (cs.take 8)
            let b2 ← parseHexPairs (r2.take 4)
            let b3 ← parseHexPairs (r4.take 4)
            let b4 ← parseHexPairs (r6.take 4)
            let b5 ← parseHexPairs g5
            some (b1 ++ b2 ++ b3 ++ b4 ++ b5)
          | _ => none
        | _ => none
      | _ => none
    | _ => none
  else none

def uuidParse (s : String) : Option (List Nat) :=
  let cs := s.data
  if cs.length = 32 then parseHexPairs cs
  else if cs.length = 36 then uuidParseHyphenated cs
  else if cs.length = 38 then
    if cs.head? = some (Char.ofNat 123) ∧ cs.getLast? = some (Char.ofNat 125) then
      uuidParseHyphenated (cs.drop 1).dropLast
    else none
  else if cs.length = 45 then
    if cs.take 9 = "urn:uuid:".data then uuidParseHyphenated (cs.drop 9)
    else none
  else none

/-! ## chrono `NaiveTime::parse_from_str` with format `"%Y-%m-%d %H:%M:%S%.f"`

The format items are: numeric year (signed, up to 4 digits when unsigned),
literal `-`, numeric month (up to 2 digits), literal `-`, numeric day,
whitespace, hour, literal `:`, minute, literal `:`, second, and `%.f`
(Fixed::Nanosecond: optional dot followed by 1 to 9 significant fraction
digits, any further digits skipped).  Numeric items tolerate leading
whitespace; whitespace in the format matches any amount (including none)
in the input; the whole input must be consumed.  `NaiveTime` resolution
uses only hour/minute/second/fraction: the date fields are parsed but their
values are not range-checked (that happens only when resolving a date);
hour must be at most 23, minute at most 59, and second at most 60 (a
parsed second of 60 denotes a leap second, folded into the nanosecond
field). -/

def isWs (c : Char) : Bool := c = ' ' || c = '\t' || c = '\n' || c = '\r'

/-- Scan 1 to `width` leading digits. -/
def scanNumber (width : Nat) (cs : List Char) : Option (Nat × List Char) :=
  let ds := (cs.take width).takeWhile (fun c => c.isDigit)
  if ds.isEmpty then none
  else some (ds.foldl (fun a c => a * 10 + (c.toNat - 48)) 0, cs.drop ds.length)

/-- Scan all leading digits (used after an explicit sign), failing on i64
overflow as chrono does. -/
def scanNumberAll (cs : List Char) : Option (Nat × List Char) :=
  let ds := cs.takeWhile (fun c => c.isDigit)
  if ds.isEmpty then none
  else
    let v := ds.foldl (fun a c => a * 10 + (c.toNat - 48)) 0
    if v < 2 ^ 63 then some (v, cs.drop ds.length) else none

/-- An unsigned numeric format item of the given maximum width. -/
def parseNumericU (width : Nat) (cs : List Char) : Option (Nat × List Char) :=
  scanNumber width (cs.dropWhile isWs)

/-- The signed year item `%Y`: optional sign (unlimited digits), otherwise
up to 4 digits; the value must fit `i32` (`Parsed::set_year`). -/
def parseYearItem (cs : List Char) : Option (Int × List Char) := do
  let cs := cs.dropWhile isWs
  let (y, rest) ← match cs with
    | '-' :: r => (scanNumberAll r).map fun p => (-(p.1 : Int), p.2)
    | '+' :: r => (scanNumberAll r).map fun p => ((p.1 : Int), p.2)
    | _ => (scanNumber 4 cs).map fun p => ((p.1 : Int), p.2)
  if -(2 ^ 31) ≤ y ∧ y < 2 ^ 31 then some (y, rest) else none

/-- `Fixed::Nanosecond` (`%.f`): optional; a dot must be followed by at
least one digit; the first nine digits are significant, the rest skipped. -/
def parseNanoItem (cs : List Char) : Option (Nat × List Char) :=
  match cs with
  | '.' :: rest =>
    let ds := (rest.take 9).takeWhile (fun c => c.isDigit)
    if ds.isEmpty then none
    else
      let v := ds.foldl (fun a c => a * 10 + (c.toNat - 48)) 0
      some (v * 10 ^ (9 - ds.length), (rest.drop ds.length).dropWhile (fun c => c.isDigit))
  | _ => some (0, cs)

def expectChar (c : Char) (cs : List Char) : Option (List Char) :=
  match cs with
  | c' :: rest => if c' = c then some rest else none
  | [] => none

def ensure (b : Bool) : Option Unit := if b then some () else none

/-- The date items `%Y-%m-%d` plus the following whitespace item: parsed
and consumed, values unused by `NaiveTime` resolution. -/
def parseDatePart (cs : List Char) : Option (List Char) := do
  let (_, cs) ← parseYearItem cs
  let cs ← expectChar '-' cs
  let (_, cs) ← parseNumericU 2 cs
  let cs ← expectChar '-' cs
  let (_, cs) ← parseNumericU 2 cs
  some (cs.dropWhile isWs)

/-- The items `%H:%M:%S%.f` plus the end-of-input check; hour is rejected
above 23 when stored (`Parsed::set_hour`). -/
def parseHms (cs : List Char) : Option (Nat × Nat × Nat × Nat) := do
  let (hr, cs) ← parseNumericU 2 cs
  let _ ← ensure (hr ≤ 23)
  let cs ← expectChar ':' cs
  let (mi, cs) ← parseNumericU 2 cs
  let cs ← expectChar ':' cs
  let (se, cs) ← parseNumericU 2 cs
  let (na, cs) ← parseNanoItem cs
  let _ ← ensure cs.isEmpty
  some (hr, mi, se, na)

def parseTimeFixedFmt (s : String) : Option NTime := do
  let cs ← parseDatePart s.data
  let (hr, mi, se, na) ← parseHms cs
  let _ ← ensure (mi ≤ 59)
  let _ ← ensure (se ≤ 60)
  let p := if se = 60 then (59, na + 1000000000) else (se, na)
  some ⟨hr * 3600 + mi * 60 + p.1, p.2⟩

/-! ## Occasion resolution (src/schedule.rs, `Occasion::try_from`) -/

/-- chrono `Weekday::try_from(u8)`: 0 = Monday .. 6 = Sunday. -/
inductive WeekdayT where
  | mon | tue | wed | thu | fri | sat | sun
deriving DecidableEq, Repr

def weekdayTryFrom (d : Nat) : Option WeekdayT :=
  match d with
  | 0 => some .mon
  | 1 => some .tue
  | 2 => some .wed
  | 3 => some .thu
  | 4 => some .fri
  | 5 => some .sat
  | 6 => some .sun
  | _ => none

/-- `ScheduleParseError` (src/errors.rs), payloads dropped. -/
inductive ScheduleParseError where
  | UuidParseError
  | DayOfWeekError
  | TimeParseError
  | SerdeError
deriving DecidableEq, Repr

/-- `RawOccasion` (src/schedule.rs lines 52-85), restricted to the fields
`Occasion::try_from` reads; the remaining wire fields are carried through
serde untouched and never inspected. -/
structure RawOccasion where
  id : Nat
  subject_name : String
  room_name : String
  day_id : Nat
  guid : String
  start_time : String
  end_time : String
  weeks_string : String
  excluding_weeks_string : String
  including_weeks_string : String
deriving DecidableEq, Repr

/-- `Occasion` (src/schedule.rs lines 93-118); the uuid is its 16-byte
value. -/
structure Occasion where
  id : Nat
  uuid : List Nat
  start_time : NTime
  end_time : NTime
  subject_name : String
  room_name : String
  week_day : WeekdayT
  weeks : List Nat
deriving DecidableEq, Repr

/-- One mask store `weeks_mask[week as usize] = b`; `none` models the
panic on an index outside the 54-slot array. -/
def maskSet (mask : List Bool) (i : Nat) (b : Bool) : Option (List Bool) :=
  if i < mask.length then some (mask.set i b) else none

/-- One `for week in WeekRange::from(s)` loop writing `b` at every parsed
week. -/
def maskWrite (mask : List Bool) (ws : List Nat) (b : Bool) : Option (List Bool) :=
  ws.foldlM (fun m w => maskSet m w b) mask

/-- The collection loop: indices of the `true` entries, in order,
starting at index `i`. -/
def collectTrue : List Bool → Nat → List Nat
  | [], _ => []
  | b :: rest, i =>
    if b then i :: collectTrue rest (i + 1) else collectTrue rest (i + 1)

/-- `Occasion::try_from` (src/schedule.rs lines 286-331).  The outer
`Option` is `none` exactly when an out-of-range week number makes a mask
store panic (which in the source happens before any of the fallible
parses); the inner `Except` carries the source's error returns, in source
order: uuid, weekday, start time, end time. -/
def occasionTryFrom (value : RawOccasion) : Option (Except ScheduleParseError Occasion) := do
  let mask0 := List.replicate 54 false
  let mask1 ← maskWrite mask0 (weekRangeList value.weeks_string) true
  let mask2 ← maskWrite mask1 (weekRangeList value.excluding_weeks_string) false
  let mask3 ← maskWrite mask2 (weekRangeList value.including_weeks_string) true
  let weeks := collectTrue mask3 0
  match uuidParse value.guid with
  | none => some (Except.error ScheduleParseError.UuidParseError)
  | some uuid =>
    match weekdayTryFrom value.day_id with
    | none => some (Except.error ScheduleParseError.DayOfWeekError)
    | some week_day =>
      match parseTimeFixedFmt value.start_time with
      | none => some (Except.error ScheduleParseError.TimeParseError)
      | some start_time =>
        match parseTimeFixedFmt value.end_time with
        | none => some (Except.error ScheduleParseError.TimeParseError)
        | some end_time =>
          some (Except.ok
            { id := value.id, uuid := uuid, start_time := start_time,
              end_time := end_time, subject_name := value.subject_name,
              room_name := value.room_name, week_day := week_day,
              weeks := weeks })

/-! ## Lesson placement (src/schedule.rs, `Lesson::from` and
`Schedule::deserialize`) -/

/-- `Lesson::from(&Occasion)` (src/schedule.rs lines 41-50). -/
def Lesson.fromOccasion (value : Occasion) : Lesson :=
  { start := value.start_time, endT := value.end_time,
    name := value.subject_name, room := value.room_name }

/-- `ScheduleWeek::get_day` (src/schedule.rs lines 270-280), read form. -/
def getDay (w : ScheduleWeek) (day : WeekdayT) : ScheduleDay :=
  match day with
  | .mon => w.monday
  | .tue => w.tuesday
  | .wed => w.wednesday
  | .thu => w.thursday
  | .fri => w.friday
  | .sat => w.saturday
  | .sun => w.sunday

/-- `ScheduleWeek::get_day` used as a mutable reference: update the
selected day. -/
def modifyDay (w : ScheduleWeek) (day : WeekdayT) (f : ScheduleDay → ScheduleDay) :
    ScheduleWeek :=
  match day with
  | .mon => { w with monday := f w.monday }
  | .tue => { w with tuesday := f w.tuesday }
  | .wed => { w with wednesday := f w.wednesday }
  | .thu => { w with thursday := f w.thursday }
  | .fri => { w with friday := f w.friday }
  | .sat => { w with saturday := f w.saturday }
  | .sun => { w with sunday := f w.sunday }

/-- In-place update of list element `i` (`schedule.weeks[i]` as a mutable
reference). -/
def modifyIdx : List ScheduleWeek → Nat → (ScheduleWeek → ScheduleWeek) →
    List ScheduleWeek
  | [], _, _ => []
  | w :: ws, 0, f => f w :: ws
  | w :: ws, i + 1, f => w :: modifyIdx ws i f

/-- One placement step:
`schedule.weeks[(week - 1) as usize].get_day(day).lessons.push(lesson)`
(src/schedule.rs lines 347-352).  `week = 0` underflows the `u8`
subtraction (a panic in debug, index 255 and hence an out-of-bounds panic
in release) and `week - 1 ≥ 53` is an out-of-bounds panic; both are
`none`. -/
def pushLesson (sched : List ScheduleWeek) (day : WeekdayT) (lesson : Lesson)
    (week : Nat) : Option (List ScheduleWeek) :=
  if week = 0 then none
  else if week - 1 < sched.length then
    some (modifyIdx sched (week - 1)
      (fun w => modifyDay w day (fun d => { d with lessons := d.lessons ++ [lesson] })))
  else none

/-- The `for week in occasion.weeks` loop of `Schedule::deserialize`. -/
def placeOccasion (sched : List ScheduleWeek) (occasion : Occasion) :
    Option (List ScheduleWeek) :=
  occasion.weeks.foldlM
    (fun s week => pushLesson s occasion.week_day (Lesson.fromOccasion occasion) week)
    sched

/-- The `for raw_occasion in raw` loop of `Schedule::deserialize`: resolve
each record, abort with the first `Err` (the `?`), place the lessons. -/
def placeAll (sched : List ScheduleWeek)  :
    List RawOccasion → Option (Except ScheduleParseError (List ScheduleWeek))
  | [] => some (Except.ok sched)
  | raw :: rest => do
    let r ← occasionTryFrom raw
    match r with
    | Except.error e => some (Except.error e)
    | Except.ok occasion => do
      let sched' ← placeOccasion sched occasion
      placeAll sched' rest

/-- `Schedule::deserialize` (src/schedule.rs lines 337-356) after the serde
step, with the hidden `Local::now().date()` made an explicit `today`
parameter.  The outer `Option` is `none` on a panic (in `Schedule::from`
or in placement); the `Except` carries the fail-fast parse error. -/
def scheduleDeserialize (today : NDate) (raws : List RawOccasion) :
    Option (Except ScheduleParseError (List ScheduleWeek)) := do
  let sched ← Schedule.fromDate today
  placeAll sched raws

/-- The occasion record of the repository's deserialization test
(src/schedule.rs lines 401-462), restricted to the fields
`Occasion::try_from` reads. -/
def sampleRawOccasion : RawOccasion :=
  { id := 36505,
    subject_name := "IDRIDO02 - Idrott och hälsa 2 - specialisering",
    room_name := "IKSU",
    day_id := 0,
    guid := "afbae58f-c35e-4480-bfd1-574fc8de5572",
    start_time := "1970-01-01 08:20:00.0",
    end_time := "1970-01-01 09:30:00.0",
    weeks_string := "34-43, 45-51, 3-9, 11-13, 15-24",
    excluding_weeks_string := "",
    including_weeks_string := "" }

deriving instance DecidableEq for Except

/-! ### Mask lemmas -/

theorem maskSet_some {mask : List Bool} {i : Nat} {b : Bool} (h : i < mask.length) :
    maskSet mask i b = some (mask.set i b) := by
  rw [maskSet, if_pos h]

theorem maskWrite_length :
    ∀ (ws : List Nat) (mask m' : List Bool) (b : Bool),
    maskWrite mask ws b = some m' → m'.length = mask.length := by
  intro ws
  induction ws with
  | nil =>
    intro mask m' b h
    rw [maskWrite, List.foldlM_nil] at h
    have : m' = mask := by simpa using h.symm
    rw [this]
  | cons w ws ih =>
    intro mask m' b h
    rw [maskWrite, List.foldlM_cons] at h
    cases hset : maskSet mask w b with
    | none => rw [hset] at h; simp at h
    | some m1 =>
      rw [hset] at h
      simp only [Option.bind_eq_bind, Option.some_bind] at h
      have h1 : m1.length = mask.length := by
        rw [maskSet] at hset
        split at hset
        · cases hset; simp
        · simp at hset
      rw [ih m1 m' b h, h1]

theorem maskWrite_total :
    ∀ (ws : List Nat) (mask : List Bool) (b : Bool),
    (∀ w ∈ ws, w < mask.length) →
    ∃ m', maskWrite mask ws b = some m' := by
  intro ws
  induction ws with
  | nil => intro mask b _; exact ⟨mask, rfl⟩
  | cons w ws ih =>
    intro mask b h
    have hw : w < mask.length := h w (by simp)
    obtain ⟨m', hm'⟩ := ih (mask.set w b) b
      (by intro x hx; rw [List.length_set]; exact h x (by simp [hx]))
    refine ⟨m', ?_⟩
    rw [maskWrite, List.foldlM_cons, maskSet_some hw]
    simp only [Option.bind_eq_bind, Option.some_bind]
    exact hm'

theorem maskWrite_get?_not_mem :
    ∀ (ws : List Nat) (mask m' : List Bool) (b : Bool) (k : Nat),
    maskWrite mask ws b = some m' → k ∉ ws → m'.get? k = mask.get? k := by
  intro ws
  induction ws with
  | nil =>
    intro mask m' b k h _
    rw [maskWrite, List.foldlM_nil] at h
    have : m' = mask := by simpa using h.symm
    rw [this]
  | cons w ws ih =>
    intro mask m' b k h hk
    rw [maskWrite, List.foldlM_cons] at h
    cases hset : maskSet mask w b with
    | none => rw [hset] at h; simp at h
    | some m1 =>
      rw [hset] at h
      simp only [Option.bind_eq_bind, Option.some_bind] at h
      have hkw : k ≠ w := fun hh => hk (by simp [hh])
      have hkws : k ∉ ws := fun hh => hk (by simp [hh])
      rw [ih m1 m' b k h hkws]
      rw [maskSet] at hset
      split at hset
      · cases hset
        exact List.get?_set_ne _ _ (fun hh => hkw hh.symm)
      · simp at hset

theorem maskWrite_get?_mem :
    ∀ (ws : List Nat) (mask m' : List Bool) (b : Bool) (k : Nat),
    maskWrite mask ws b = some m' → k ∈ ws → m'.get? k = some b := by
  intro ws
  induction ws with
  | nil => intro mask m' b k _ hk; simp at hk
  | cons w ws ih =>
    intro mask m' b k h hk
    rw [maskWrite, List.foldlM_cons] at h
    cases hset : maskSet mask w b with
    | none => rw [hset] at h; simp at h
    | some m1 =>
      rw [hset] at h
      simp only [Option.bind_eq_bind, Option.some_bind] at h
      by_cases hkws : k ∈ ws
      · exact ih m1 m' b k h hkws
      · have hkw : k = w := by
          rcases List.mem_cons.mp hk with hh | hh
          · exact hh
          · exact absurd hh hkws
        subst hkw
        rw [maskWrite_get?_not_mem ws m1 m' b k h hkws]
        rw [maskSet] at hset
        split at hset
        · cases hset
          rw [List.get?_set_eq_of_lt]
          assumption
        · simp at hset

/-! ### Collection lemmas -/

theorem collectTrue_mem :
    ∀ (m : List Bool) (i k : Nat),
    k ∈ collectTrue m i ↔ (i ≤ k ∧ m.get? (k - i) = some true) := by
  intro m
  induction m with
  | nil => intro i k; simp [collectTrue]
  | cons b rest ih =>
    intro i k
    rw [collectTrue]
    by_cases hik : k = i
    · subst hik
      rcases b with _ | _
      · rw [if_neg (by simp)]
        apply iff_of_false
        · intro hmem
          have := (ih (k + 1) k).mp hmem
          omega
        · rintro ⟨_, h2⟩
          rw [Nat.sub_self] at h2
          simp at h2
      · rw [if_pos rfl]
        exact iff_of_true (List.mem_cons_self k _)
          ⟨Nat.le_refl k, by rw [Nat.sub_self]; rfl⟩
    · have hsplit : k - i = (k - (i + 1)) + 1 ∨ k < i := by omega
      constructor
      · intro hmem
        have hmem' : k ∈ collectTrue rest (i + 1) := by
          rcases b with _ | _
          · rw [if_neg (by simp)] at hmem
            exact hmem
          · rw [if_pos rfl] at hmem
            rcases List.mem_cons.mp hmem with hh | hh
            · exact absurd hh hik
            · exact hh
        obtain ⟨h1, h2⟩ := (ih (i + 1) k).mp hmem'
        refine ⟨by omega, ?_⟩
        rw [show k - i = (k - (i + 1)) + 1 by omega]
        simpa using h2
      · rintro ⟨h1, h2⟩
        have hik' : i + 1 ≤ k := by omega
        rw [show k - i = (k - (i + 1)) + 1 by omega] at h2
        simp only [List.get?_cons_succ] at h2
        have hmem := (ih (i + 1) k).mpr ⟨hik', h2⟩
        rcases b with _ | _
        · rw [if_neg (by simp)]
          exact hmem
        · rw [if_pos rfl]
          exact List.mem_cons_of_mem _ hmem

theorem collectTrue_sorted :
    ∀ (m : List Bool) (i : Nat), List.Sorted (· < ·) (collectTrue m i) := by
  intro m
  induction m with
  | nil => intro i; simp [collectTrue]
  | cons b rest ih =>
    intro i
    rw [collectTrue]
    rcases b with _ | _
    · rw [if_neg (by simp)]
      exact ih (i + 1)
    · rw [if_pos rfl]
      rw [List.sorted_cons]
      refine ⟨?_, ih (i + 1)⟩
      intro k hk
      have := (collectTrue_mem rest (i + 1) k).mp hk
      omega

/-- Unpack a successful `Occasion::try_from`: the three mask passes
succeeded and the weeks are the collected `true` indices. -/
theorem occasionTryFrom_ok_weeks {r : RawOccasion} {occ : Occasion}
    (h : occasionTryFrom r = some (Except.ok occ)) :
    ∃ m1 m2 m3,
      maskWrite (List.replicate 54 false) (weekRangeList r.weeks_string) true = some m1 ∧
      maskWrite m1 (weekRangeList r.excluding_weeks_string) false = some m2 ∧
      maskWrite m2 (weekRangeList r.including_weeks_string) true = some m3 ∧
      occ.weeks = collectTrue m3 0 := by
  rw [occasionTryFrom] at h
  simp only [Option.bind_eq_bind] at h
  cases h1 : maskWrite (List.replicate 54 false) (weekRangeList r.weeks_string) true with
  | none => rw [h1] at h; simp at h
  | some m1 =>
    rw [h1, Option.some_bind] at h
    cases h2 : maskWrite m1 (weekRangeList r.excluding_weeks_string) false with
    | none => rw [h2] at h; simp at h
    | some m2 =>
      rw [h2, Option.some_bind] at h
      cases h3 : maskWrite m2 (weekRangeList r.including_weeks_string) true with
      | none => rw [h3] at h; simp at h
      | some m3 =>
        rw [h3, Option.some_bind] at h
        refine ⟨m1, m2, m3, rfl, h2, h3, ?_⟩
        cases hu : uuidParse r.guid with
        | none => rw [hu] at h; simp at h
        | some u =>
          rw [hu] at h
          cases hd : weekdayTryFrom r.day_id with
          | none => rw [hd] at h; simp at h
          | some wd =>
            rw [hd] at h
            cases hs : parseTimeFixedFmt r.start_time with
            | none => rw [hs] at h; simp at h
            | some st =>
              rw [hs] at h
              cases he : parseTimeFixedFmt r.end_time with
              | none => rw [he] at h; simp at h
              | some et =>
                rw [he] at h
                have hinj := Except.ok.inj (Option.some.inj h)
                rw [← hinj]

theorem replicate_get? (b : Bool) :
    ∀ (n k : Nat), (List.replicate n b).get? k = if k < n then some b else none := by
  intro n
  induction n with
  | zero => intro k; simp
  | succ n ih =>
    intro k
    cases k with
    | zero => simp [List.replicate]
    | succ k =>
      rw [List.replicate, List.get?_cons_succ, ih k]
      by_cases h : k < n
      · rw [if_pos h, if_pos (by omega)]
      · rw [if_neg h, if_neg (by omega)]

/-- The record of the spec's inclusion-wins test: base `1-10`, excluding
`5`, including `5`. -/
def sampleInclRecord : RawOccasion := { sampleRawOccasion with
  weeks_string := "1-10",
  excluding_weeks_string := "5",
  including_weeks_string := "5" }

/-- The record of the spec's exclusion test: base `1-10`, excluding `5`,
no includes. -/
def sampleExclRecord : RawOccasion := { sampleRawOccasion with
  weeks_string := "1-10",
  excluding_weeks_string := "5" }

/-- Shared helper: membership in the resolved weeks of a successful
`Occasion::try_from` — included, or base-and-not-excluded. -/
theorem occasionTryFrom_mem_iff :
    ∀ (r : RawOccasion) (occ : Occasion),
    occasionTryFrom r = some (Except.ok occ) →
    ∀ k, k ∈ occ.weeks ↔
      (k ∈ weekRangeList r.including_weeks_string ∨
        (k ∈ weekRangeList r.weeks_string ∧
          k ∉ weekRangeList r.excluding_weeks_string)) := by
  intro r occ h k
  obtain ⟨m1, m2, m3, e1, e2, e3, hw⟩ := occasionTryFrom_ok_weeks h
  rw [hw, collectTrue_mem m3 0 k]
  simp only [Nat.zero_le, true_and, Nat.sub_zero]
  by_cases hincl : k ∈ weekRangeList r.including_weeks_string
  · rw [maskWrite_get?_mem _ _ _ _ _ e3 hincl]
    simp [hincl]
  · rw [maskWrite_get?_not_mem _ _ _ _ _ e3 hincl]
    by_cases hexcl : k ∈ weekRangeList r.excluding_weeks_string
    · rw [maskWrite_get?_mem _ _ _ _ _ e2 hexcl]
      simp [hincl, hexcl]
    · rw [maskWrite_get?_not_mem _ _ _ _ _ e2 hexcl]
      by_cases hbase : k ∈ weekRangeList r.weeks_string
      · rw [maskWrite_get?_mem _ _ _ _ _ e1 hbase]
        simp [hincl, hexcl, hbase]
      · rw [maskWrite_get?_not_mem _ _ _ _ _ e1 hbase, replicate_get?]
        split <;> simp [hincl, hexcl, hbase]

/-- C2: occasion mask resolution.  For every raw record that resolves, a
week is in the resolved list iff it is an included week, or a base week
that is not excluded (inclusion applied last, so it overrides exclusion).
Concretely: base `1-10`/excluding `5`/including `5` keeps week 5; base
`1-10`/excluding `5` drops week 5; and the repository's sample record
resolves to the 37-element ascending list. -/
theorem occasion_mask_resolution :
    (∀ (r : RawOccasion) (occ : Occasion),
      occasionTryFrom r = some (Except.ok occ) →
      ∀ k, k ∈ occ.weeks ↔
        (k ∈ weekRangeList r.including_weeks_string ∨
          (k ∈ weekRangeList r.weeks_string ∧
            k ∉ weekRangeList r.excluding_weeks_string))) ∧
    (occasionTryFrom sampleInclRecord).map (Except.map Occasion.weeks) =
      some (Except.ok [1, 2, 3, 4, 5, 6, 7, 8, 9, 10]) ∧
    (occasionTryFrom sampleExclRecord).map (Except.map Occasion.weeks) =
      some (Except.ok [1, 2, 3, 4, 6, 7, 8, 9, 10]) ∧
    (occasionTryFrom sampleRawOccasion).map (Except.map Occasion.weeks) =
      some (Except.ok [3, 4, 5, 6, 7, 8, 9, 11, 12, 13, 15, 16, 17, 18, 19, 20, 21,
        22, 23, 24, 34, 35, 36, 37, 38, 39, 40, 41, 42, 43, 45, 46, 47, 48, 49, 50, 51]) :=
  ⟨occasionTryFrom_mem_iff, by decide, by decide, by decide⟩

/-- C2 witness: resolving the inclusion-wins record succeeds, and week 5 is
a member as the general rule predicts. -/
theorem occasion_mask_resolution_witness :
    ∃ occ, occasionTryFrom sampleInclRecord = some (Except.ok occ) ∧
      5 ∈ occ.weeks := by
  have hmap : (occasionTryFrom sampleInclRecord).map (Except.map Occasion.weeks) =
      some (Except.ok [1, 2, 3, 4, 5, 6, 7, 8, 9, 10]) := by decide
  cases ho : occasionTryFrom sampleInclRecord with
  | none => rw [ho] at hmap; simp at hmap
  | some res =>
    cases res with
    | error e => rw [ho] at hmap; simp [Except.map] at hmap
    | ok occ =>
      refine ⟨occ, rfl, ?_⟩
      refine (occasion_mask_resolution.1 sampleInclRecord occ ho 5).mpr ?_
      left
      decide

/-- C8 counterexample: a record whose `weeksString` is the literal `"0"`
resolves successfully to `weeks = [0]` — the week list of a successfully
resolved occasion is not always within `1..=53`. -/
theorem resolved_weeks_zero_counterexample :
    (occasionTryFrom { sampleRawOccasion with
      weeks_string := "0" }).map (Except.map Occasion.weeks) =
      some (Except.ok [0]) ∧
    ¬(∀ w ∈ ([0] : List Nat), 1 ≤ w ∧ w ≤ 53) :=
  ⟨by decide, by decide⟩

/-- C8 (amended): for every raw record that resolves successfully, the
weeks list is strictly ascending (hence distinct), every entry is at most
53 (the mask bound), and entry 0 can occur only when a week-range string
contains the literal `0`; an empty weeks list is permitted without error. -/
theorem resolved_weeks_invariant :
    (∀ (r : RawOccasion) (occ : Occasion),
      occasionTryFrom r = some (Except.ok occ) →
      List.Sorted (· < ·) occ.weeks ∧ occ.weeks.Nodup ∧
        (∀ w ∈ occ.weeks, w ≤ 53) ∧
        (0 ∈ occ.weeks → 0 ∈ weekRangeList r.weeks_string ∨
          0 ∈ weekRangeList r.including_weeks_string)) ∧
    (occasionTryFrom { sampleRawOccasion with
      weeks_string := "" }).map (Except.map Occasion.weeks) =
      some (Except.ok []) := by
  refine ⟨?_, by decide⟩
  intro r occ h
  obtain ⟨m1, m2, m3, e1, e2, e3, hw⟩ := occasionTryFrom_ok_weeks h
  have hsorted : List.Sorted (· < ·) occ.weeks := by
    rw [hw]; exact collectTrue_sorted m3 0
  have hlen3 : m3.length = 54 := by
    rw [maskWrite_length _ _ _ _ e3, maskWrite_length _ _ _ _ e2,
      maskWrite_length _ _ _ _ e1]
    simp
  refine ⟨hsorted, hsorted.nodup, ?_, ?_⟩
  · intro w hwmem
    rw [hw] at hwmem
    obtain ⟨-, hget⟩ := (collectTrue_mem m3 0 w).mp hwmem
    rw [Nat.sub_zero] at hget
    have hlt : w < m3.length := by
      by_contra hge
      rw [List.get?_eq_none.mpr (by omega)] at hget
      simp at hget
    omega
  · intro h0
    have h0' := (occasionTryFrom_mem_iff r occ h 0).mp h0
    rcases h0' with hh | ⟨hh, _⟩
    · exact Or.inr hh
    · exact Or.inl hh

/-- C8 witness: the repository's sample record resolves, and its weeks
list is sorted, duplicate-free and bounded by 53. -/
theorem resolved_weeks_invariant_witness :
    ∃ occ, occasionTryFrom sampleRawOccasion = some (Except.ok occ) ∧
      List.Sorted (· < ·) occ.weeks ∧ occ.weeks.Nodup ∧ ∀ w ∈ occ.weeks, w ≤ 53 := by
  have hmap : (occasionTryFrom sampleRawOccasion).map (Except.map Occasion.weeks) =
      some (Except.ok [3, 4, 5, 6, 7, 8, 9, 11, 12, 13, 15, 16, 17, 18, 19, 20, 21,
        22, 23, 24, 34, 35, 36, 37, 38, 39, 40, 41, 42, 43, 45, 46, 47, 48, 49, 50,
        51]) := by decide
  cases ho : occasionTryFrom sampleRawOccasion with
  | none => rw [ho] at hmap; simp at hmap
  | some res =>
    cases res with
    | error e => rw [ho] at hmap; simp [Except.map] at hmap
    | ok occ =>
      obtain ⟨h1, h2, h3, -⟩ := resolved_weeks_invariant.1 sampleRawOccasion occ ho
      exact ⟨occ, rfl, h1, h2, h3⟩

theorem modifyIdx_length :
    ∀ (l : List ScheduleWeek) (i : Nat) (f : ScheduleWeek → ScheduleWeek),
    (modifyIdx l i f).length = l.length := by
  intro l
  induction l with
  | nil => intro i f; rfl
  | cons w ws ih =>
    intro i f
    cases i with
    | zero => rfl
    | succ i => simp [modifyIdx, ih]

theorem pushLesson_some {sched : List ScheduleWeek} {day : WeekdayT}
    {lesson : Lesson} {week : Nat} (h1 : 1 ≤ week) (h2 : week - 1 < sched.length) :
    pushLesson sched day lesson week =
      some (modifyIdx sched (week - 1)
        (fun w => modifyDay w day
          (fun d => { d with lessons := d.lessons ++ [lesson] }))) := by
  rw [pushLesson, if_neg (by omega), if_pos h2]

/-- The placement loop never goes out of bounds when all weeks lie in
`1..=53` and the schedule has its 53 slots. -/
theorem placeOccasion_loop_isSome :
    ∀ (ws : List Nat) (sched : List ScheduleWeek) (day : WeekdayT) (lesson : Lesson),
    sched.length = 53 → (∀ w ∈ ws, 1 ≤ w ∧ w ≤ 53) →
    (ws.foldlM (fun s week => pushLesson s day lesson week) sched).isSome = true := by
  intro ws
  induction ws with
  | nil => intro sched day lesson _ _; rfl
  | cons w ws ih =>
    intro sched day lesson hlen hbound
    obtain ⟨hw1, hw2⟩ := hbound w (by simp)
    rw [List.foldlM_cons, pushLesson_some hw1 (by omega)]
    simp only [Option.bind_eq_bind, Option.some_bind]
    exact ih _ day lesson (by rw [modifyIdx_length, hlen])
      (fun x hx => hbound x (by simp [hx]))

/-- C9: bounds behavior of week numbers.  (1) If every parsed week of the
three range strings lies in `1..=53`, resolution performs no out-of-bounds
mask store (no panic).  (2) If every resolved week of an occasion lies in
`1..=53` and the schedule has 53 slots, placement performs no
out-of-bounds slot access.  (3) A record with weeksString `"54"` panics at
the 54-slot mask (modelled `none`).  (4) A batch containing week 0 panics
at the `(week - 1)` slot computation inside `Schedule::deserialize`
(modelled `none`). -/
theorem week_bounds_safety :
    (∀ r : RawOccasion,
      (∀ w ∈ weekRangeList r.weeks_string ++ weekRangeList r.excluding_weeks_string ++
          weekRangeList r.including_weeks_string, 1 ≤ w ∧ w ≤ 53) →
      (occasionTryFrom r).isSome = true) ∧
    (∀ (sched : List ScheduleWeek) (occ : Occasion), sched.length = 53 →
      (∀ w ∈ occ.weeks, 1 ≤ w ∧ w ≤ 53) →
      (placeOccasion sched occ).isSome = true) ∧
    occasionTryFrom { sampleRawOccasion with
      weeks_string := "54" } = none ∧
    scheduleDeserialize ⟨2024, 91⟩ [{ sampleRawOccasion with
      weeks_string := "0" }] = none := by
  refine ⟨?_, ?_, by decide, by decide⟩
  · intro r hbound
    rw [occasionTryFrom]
    simp only [Option.bind_eq_bind]
    have hrep : (List.replicate 54 false).length = 54 := by simp
    obtain ⟨m1, e1⟩ := maskWrite_total (weekRangeList r.weeks_string)
      (List.replicate 54 false) true
      (fun w hw => by
        have := hbound w (by simp [hw])
        rw [hrep]
        omega)
    have hl1 : m1.length = 54 := by rw [maskWrite_length _ _ _ _ e1, hrep]
    obtain ⟨m2, e2⟩ := maskWrite_total (weekRangeList r.excluding_weeks_string) m1 false
      (fun w hw => by
        have := hbound w (by simp [hw])
        rw [hl1]
        omega)
    have hl2 : m2.length = 54 := by rw [maskWrite_length _ _ _ _ e2, hl1]
    obtain ⟨m3, e3⟩ := maskWrite_total (weekRangeList r.including_weeks_string) m2 true
      (fun w hw => by
        have := hbound w (by simp [hw])
        rw [hl2]
        omega)
    rw [e1, Option.some_bind, e2, Option.some_bind, e3, Option.some_bind]
    cases h4 : uuidParse r.guid
    · simp
    · cases h5 : weekdayTryFrom r.day_id
      · simp
      · cases h6 : parseTimeFixedFmt r.start_time
        · simp
        · cases h7 : parseTimeFixedFmt r.end_time <;> simp
  · intro sched occ hlen hbound
    exact placeOccasion_loop_isSome occ.weeks sched occ.week_day
      (Lesson.fromOccasion occ) hlen hbound

/-- C9 witness: the sample record's weeks all lie in `1..=53` and its
resolution succeeds; placing an occasion with weeks `[3, 4, 5]` on a
53-slot schedule succeeds. -/
theorem week_bounds_safety_witness :
    (∀ w ∈ weekRangeList sampleRawOccasion.weeks_string ++
        weekRangeList sampleRawOccasion.excluding_weeks_string ++
        weekRangeList sampleRawOccasion.including_weeks_string, 1 ≤ w ∧ w ≤ 53) ∧
    (occasionTryFrom sampleRawOccasion).isSome = true := by
  refine ⟨by decide, week_bounds_safety.1 sampleRawOccasion (by decide)⟩

/-- Read access used to state placement: the lessons of weekday `day` of
slot `i`. -/
def lessonsAt (sched : List ScheduleWeek) (i : Nat) (day : WeekdayT) : List Lesson :=
  match sched.get? i with
  | some w => (getDay w day).lessons
  | none => []

theorem modifyIdx_get? :
    ∀ (l : List ScheduleWeek) (i j : Nat) (f : ScheduleWeek → ScheduleWeek),
    (modifyIdx l i f).get? j = if i = j then f <$> l.get? j else l.get? j := by
  intro l
  induction l with
  | nil => intro i j f; simp [modifyIdx]
  | cons w ws ih =>
    intro i j f
    cases i with
    | zero =>
      cases j with
      | zero => simp [modifyIdx]
      | succ j => simp [modifyIdx]
    | succ i =>
      cases j with
      | zero => simp [modifyIdx]
      | succ j =>
        rw [show modifyIdx (w :: ws) (i + 1) f = w :: modifyIdx ws i f from rfl]
        rw [List.get?_cons_succ, List.get?_cons_succ, ih i j f]
        by_cases h : i = j
        · rw [if_pos h, if_pos (by omega)]
        · rw [if_neg h, if_neg (by omega)]

theorem getDay_modifyDay (w : ScheduleWeek) (d d' : WeekdayT)
    (f : ScheduleDay → ScheduleDay) :
    getDay (modifyDay w d f) d' = if d' = d then f (getDay w d') else getDay w d' := by
  cases d <;> cases d' <;> simp [getDay, modifyDay]

theorem lessonsAt_modifyIdx_ne (sched : List ScheduleWeek) (j i : Nat)
    (f : ScheduleWeek → ScheduleWeek) (d : WeekdayT) (h : j ≠ i) :
    lessonsAt (modifyIdx sched j f) i d = lessonsAt sched i d := by
  rw [lessonsAt, lessonsAt, modifyIdx_get?, if_neg h]

theorem lessonsAt_modifyIdx_eq {sched : List ScheduleWeek} {i : Nat} {w : ScheduleWeek}
    (f : ScheduleWeek → ScheduleWeek) (d : WeekdayT) (hg : sched.get? i = some w) :
    lessonsAt (modifyIdx sched i f) i d = (getDay (f w) d).lessons := by
  rw [lessonsAt, modifyIdx_get?, if_pos rfl, hg]
  rfl

theorem lessonsAt_of_get? {sched : List ScheduleWeek} {i : Nat} {w : ScheduleWeek}
    (d : WeekdayT) (hg : sched.get? i = some w) :
    lessonsAt sched i d = (getDay w d).lessons := by
  rw [lessonsAt, hg]

theorem pushLesson_lessonsAt {sched : List ScheduleWeek} {day : WeekdayT}
    {lesson : Lesson} {week : Nat} {s' : List ScheduleWeek}
    (h : pushLesson sched day lesson week = some s') (i : Nat) (d : WeekdayT) :
    lessonsAt s' i d = lessonsAt sched i d ++
      (if week = i + 1 ∧ d = day then [lesson] else []) := by
  rw [pushLesson] at h
  split at h
  · simp at h
  · split at h
    · have hs' := Option.some.inj h
      subst hs'
      by_cases hcase : week - 1 = i
      · subst hcase
        cases hg : sched.get? (week - 1) with
        | none =>
          exfalso
          rw [List.get?_eq_none] at hg
          omega
        | some w =>
          rw [lessonsAt_modifyIdx_eq _ d hg, lessonsAt_of_get? d hg, getDay_modifyDay]
          by_cases hd : d = day
          · rw [if_pos hd, if_pos ⟨by omega, hd⟩]
          · rw [if_neg hd, if_neg (by rintro ⟨-, hh⟩; exact hd hh), List.append_nil]
      · rw [lessonsAt_modifyIdx_ne _ _ _ _ _ hcase,
          if_neg (by rintro ⟨hh, -⟩; omega), List.append_nil]
    · simp at h

theorem placeOccasion_lessonsAt :
    ∀ (ws : List Nat) (sched s' : List ScheduleWeek) (day : WeekdayT) (lesson : Lesson),
    ws.Nodup →
    ws.foldlM (fun s week => pushLesson s day lesson week) sched = some s' →
    ∀ (i : Nat) (d : WeekdayT), lessonsAt s' i d = lessonsAt sched i d ++
      (if (i + 1) ∈ ws ∧ d = day then [lesson] else []) := by
  intro ws
  induction ws with
  | nil =>
    intro sched s' day lesson _ h i d
    rw [List.foldlM_nil] at h
    have : s' = sched := by simpa using h.symm
    subst this
    simp
  | cons w ws ih =>
    intro sched s' day lesson hnd h i d
    rw [List.nodup_cons] at hnd
    rw [List.foldlM_cons] at h
    cases h1 : pushLesson sched day lesson w with
    | none => rw [h1] at h; simp at h
    | some s1 =>
      rw [h1] at h
      simp only [Option.bind_eq_bind, Option.some_bind] at h
      rw [ih s1 s' day lesson hnd.2 h i d, pushLesson_lessonsAt h1 i d]
      by_cases hd : d = day
      · by_cases hw : w = i + 1
        · have hnotin : (i + 1) ∉ ws := by rw [← hw]; exact hnd.1
          rw [if_pos ⟨hw, hd⟩, if_neg (by rintro ⟨hh, -⟩; exact hnotin hh),
            if_pos ⟨by rw [← hw]; exact List.mem_cons_self w ws, hd⟩, List.append_nil]
        · rw [if_neg (by rintro ⟨hh, -⟩; exact hw hh), List.append_nil]
          by_cases hws : (i + 1) ∈ ws
          · rw [if_pos ⟨hws, hd⟩, if_pos ⟨List.mem_cons_of_mem w hws, hd⟩]
          · rw [if_neg (by rintro ⟨hh, -⟩; exact hws hh),
              if_neg (by
                rintro ⟨hh, -⟩
                rcases List.mem_cons.mp hh with hh' | hh'
                · exact hw hh'.symm
                · exact hws hh')]
      · rw [if_neg (by rintro ⟨-, hh⟩; exact hd hh),
          if_neg (by rintro ⟨-, hh⟩; exact hd hh),
          if_neg (by rintro ⟨-, hh⟩; exact hd hh), List.append_nil, List.append_nil]

/-- An empty 53-slot schedule used for the concrete placement example (the
dates are irrelevant to placement). -/
def emptySched53 : List ScheduleWeek :=
  List.replicate 53
    { monday := ⟨⟨2024, 0⟩, []⟩, tuesday := ⟨⟨2024, 1⟩, []⟩,
      wednesday := ⟨⟨2024, 2⟩, []⟩, thursday := ⟨⟨2024, 3⟩, []⟩,
      friday := ⟨⟨2024, 4⟩, []⟩, saturday := ⟨⟨2024, 5⟩, []⟩,
      sunday := ⟨⟨2024, 6⟩, []⟩ }

/-- A concrete occasion recurring on weeks 3, 4, 5, weekday Monday. -/
def sampleOccasion345 : Occasion :=
  { id := 36505, uuid := [], start_time := ⟨30000, 0⟩, end_time := ⟨34200, 0⟩,
    subject_name := "IDRIDO02 - Idrott och hälsa 2 - specialisering",
    room_name := "IKSU", week_day := WeekdayT.mon, weeks := [3, 4, 5] }

def weekdayListAll : List WeekdayT :=
  [WeekdayT.mon, WeekdayT.tue, WeekdayT.wed, WeekdayT.thu, WeekdayT.fri,
    WeekdayT.sat, WeekdayT.sun]

/-- C4: placement pass.  For every resolved occasion and every schedule,
a successful placement appends exactly one Lesson — carrying the
occasion's start/end time, subject name and room name (`Lesson::from`) —
to the day matching the occasion's weekday of slot `w - 1` for each week
`w` of the occasion, and changes no other slot or weekday.  Concretely, an
occasion with weeks `[3, 4, 5]` on Monday yields exactly one Lesson on the
Monday of 0-based slots 2, 3, 4 of an empty 53-slot schedule and none
elsewhere. -/
theorem placement_exact :
    (∀ (r : RawOccasion) (occ : Occasion) (sched s' : List ScheduleWeek),
      occasionTryFrom r = some (Except.ok occ) →
      placeOccasion sched occ = some s' →
      ∀ (i : Nat) (d : WeekdayT), lessonsAt s' i d = lessonsAt sched i d ++
        (if (i + 1) ∈ occ.weeks ∧ d = occ.week_day
          then [Lesson.fromOccasion occ] else [])) ∧
    (placeOccasion emptySched53 sampleOccasion345).map (fun s =>
      (List.range 53).all fun i => weekdayListAll.all fun d =>
        decide (lessonsAt s i d =
          if (i = 2 ∨ i = 3 ∨ i = 4) ∧ d = WeekdayT.mon
          then [Lesson.fromOccasion sampleOccasion345] else [])) = some true := by
  refine ⟨?_, by decide⟩
  intro r occ sched s' hok hplace i d
  have hnd : occ.weeks.Nodup := by
    obtain ⟨m1, m2, m3, e1, e2, e3, hw⟩ := occasionTryFrom_ok_weeks hok
    rw [hw]
    exact (collectTrue_sorted m3 0).nodup
  exact placeOccasion_lessonsAt occ.weeks sched s' occ.week_day
    (Lesson.fromOccasion occ) hnd hplace i d

/-- C4 witness: resolving a record with weeksString `"3-5"` and weekday
code 0 and placing it on the empty 53-slot schedule puts the lesson on the
Monday of slot 2 and nothing on slot 5's Monday or slot 2's Tuesday. -/
theorem placement_exact_witness :
    ∃ occ s', occasionTryFrom { sampleRawOccasion with
        weeks_string := "3-5" } = some (Except.ok occ) ∧
      placeOccasion emptySched53 occ = some s' ∧
      lessonsAt s' 2 WeekdayT.mon = [Lesson.fromOccasion occ] ∧
      lessonsAt s' 5 WeekdayT.mon = [] ∧
      lessonsAt s' 2 WeekdayT.tue = [] := by
  have hmap : (occasionTryFrom { sampleRawOccasion with
      weeks_string := "3-5" }).map
      (Except.map fun o => (o.weeks, o.week_day)) =
      some (Except.ok ([3, 4, 5], WeekdayT.mon)) := by decide
  cases ho : occasionTryFrom { sampleRawOccasion with
      weeks_string := "3-5" } with
  | none => rw [ho] at hmap; simp at hmap
  | some res =>
    cases res with
    | error e => rw [ho] at hmap; simp [Except.map] at hmap
    | ok occ =>
      rw [ho] at hmap
      simp only [Option.map_some', Except.map, Option.some.injEq,
        Except.ok.injEq, Prod.mk.injEq] at hmap
      have hweeks : occ.weeks = [3, 4, 5] := hmap.1
      have hday : occ.week_day = WeekdayT.mon := hmap.2
      have hsome : (placeOccasion emptySched53 occ).isSome = true := by
        rw [placeOccasion, hweeks]
        exact placeOccasion_loop_isSome [3, 4, 5] _ _ _ (by decide) (by decide)
      obtain ⟨s', hs'⟩ := Option.isSome_iff_exists.mp hsome
      have hmain := placement_exact.1 _ occ emptySched53 s' ho hs'
      refine ⟨occ, s', rfl, hs', ?_, ?_, ?_⟩
      · rw [hmain 2 WeekdayT.mon, hweeks, hday]
        rw [if_pos ⟨by decide, rfl⟩]
        rw [show lessonsAt emptySched53 2 WeekdayT.mon = [] from by decide]
        rw [List.nil_append]
      · rw [hmain 5 WeekdayT.mon, hweeks, hday]
        rw [if_neg (by rintro ⟨hh, -⟩; revert hh; decide)]
        rw [show lessonsAt emptySched53 5 WeekdayT.mon = [] from by decide]
        rfl
      · rw [hmain 2 WeekdayT.tue, hweeks, hday]
        rw [if_neg (by rintro ⟨-, hh⟩; revert hh; decide)]
        rw [show lessonsAt emptySched53 2 WeekdayT.tue = [] from by decide]
        rfl

theorem weekdayTryFrom_ge7 : ∀ {d : Nat}, 7 ≤ d → weekdayTryFrom d = none := by
  intro d h
  match d, h with
  | n + 7, _ => rfl

def exceptIsOk : Except ScheduleParseError Occasion → Bool
  | Except.ok _ => true
  | Except.error _ => false

/-- The timestamp format exactly as the claim words it: `YYYY-MM-DD
HH:MM:SS` with an optional dot followed by 1–3 fractional-second digits.
Modelled from the spec's words, for comparison against the parser the
source actually calls. -/
def matchesSpecTimeFormat (s : String) : Bool :=
  match s.data with
  | y1 :: y2 :: y3 :: y4 :: '-' :: m1 :: m2 :: '-' :: d1 :: d2 :: ' ' ::
      h1 :: h2 :: ':' :: i1 :: i2 :: ':' :: s1 :: s2 :: rest =>
    ([y1, y2, y3, y4, m1, m2, d1, d2, h1, h2, i1, i2, s1, s2].all fun c => c.isDigit) &&
    (match rest with
     | [] => true
     | '.' :: ds =>
       (ds.all fun c => c.isDigit) && decide (1 ≤ ds.length) && decide (ds.length ≤ 3)
     | _ => false)
  | _ => false

/-- C5 counterexample: the timestamp `"1970-01-01 08:20:00.1234"` does not
match the claimed fixed format (its fraction has four digits), yet
`Occasion::try_from` succeeds on a record carrying it — chrono's `%.f`
accepts up to nine fractional digits. -/
theorem parse_failures_counterexample :
    matchesSpecTimeFormat "1970-01-01 08:20:00.1234" = false ∧
    matchesSpecTimeFormat "1970-01-01 08:20:00.0" = true ∧
    (occasionTryFrom { sampleRawOccasion with
      start_time := "1970-01-01 08:20:00.1234" }).map exceptIsOk = some true :=
  ⟨by decide, by decide, by decide⟩

/-- Fail-fast of the placement loop: well-formed records before the first
failing record are consumed, and the first record that resolves to an
error aborts the whole batch with exactly that error. -/
theorem placeAll_first_error :
    ∀ (good : List RawOccasion) (sched : List ScheduleWeek) (r : RawOccasion)
      (rest : List RawOccasion) (e : ScheduleParseError)
      (res : Except ScheduleParseError (List ScheduleWeek)),
    (∀ g ∈ good, ∃ occ, occasionTryFrom g = some (Except.ok occ)) →
    occasionTryFrom r = some (Except.error e) →
    placeAll sched (good ++ r :: rest) = some res →
    res = Except.error e := by
  intro good
  induction good with
  | nil =>
    intro sched r rest e res _ hr h
    rw [List.nil_append, placeAll, hr] at h
    simp only [Option.bind_eq_bind, Option.some_bind] at h
    exact (Option.some.inj h).symm
  | cons g good ih =>
    intro sched r rest e res hgood hr h
    obtain ⟨occ, hocc⟩ := hgood g (by simp)
    rw [List.cons_append, placeAll, hocc] at h
    simp only [Option.bind_eq_bind, Option.some_bind] at h
    cases hp : placeOccasion sched occ with
    | none => rw [hp] at h; simp at h
    | some s1 =>
      rw [hp] at h
      simp only [Option.some_bind] at h
      exact ih s1 r rest e res (fun g' hg' => hgood g' (by simp [hg'])) hr h

/-- C5 (amended): for every raw occasion record, a UUID parse failure, a
weekday code outside `[0, 6]`, or a start/end timestamp rejected by
chrono's parser for `"%Y-%m-%d %H:%M:%S%.f"` — which is laxer than the
claim's literal `YYYY-MM-DD HH:MM:SS` with 1–3 fraction digits: it accepts
one to nine fractional digits (further digits ignored) and variable-width
numeric fields — makes `Occasion::try_from` return an error, and
`Schedule::deserialize` returns the first such error without producing any
schedule. -/
theorem parse_failures_fail_fast :
    (∀ (r : RawOccasion) (res : Except ScheduleParseError Occasion),
      occasionTryFrom r = some res →
      (uuidParse r.guid = none ∨ 7 ≤ r.day_id ∨
        parseTimeFixedFmt r.start_time = none ∨
        parseTimeFixedFmt r.end_time = none) →
      ∃ e, res = Except.error e) ∧
    (∀ (today : NDate) (good : List RawOccasion) (r : RawOccasion)
      (rest : List RawOccasion) (e : ScheduleParseError)
      (res : Except ScheduleParseError (List ScheduleWeek)),
      (∀ g ∈ good, ∃ occ, occasionTryFrom g = some (Except.ok occ)) →
      occasionTryFrom r = some (Except.error e) →
      scheduleDeserialize today (good ++ r :: rest) = some res →
      res = Except.error e) := by
  constructor
  · intro r res h hfail
    rw [occasionTryFrom] at h
    simp only [Option.bind_eq_bind] at h
    cases h1 : maskWrite (List.replicate 54 false) (weekRangeList r.weeks_string) true with
    | none => rw [h1] at h; simp at h
    | some m1 =>
      rw [h1, Option.some_bind] at h
      cases h2 : maskWrite m1 (weekRangeList r.excluding_weeks_string) false with
      | none => rw [h2] at h; simp at h
      | some m2 =>
        rw [h2, Option.some_bind] at h
        cases h3 : maskWrite m2 (weekRangeList r.including_weeks_string) true with
        | none => rw [h3] at h; simp at h
        | some m3 =>
          rw [h3, Option.some_bind] at h
          cases h4 : uuidParse r.guid with
          | none =>
            rw [h4] at h
            exact ⟨ScheduleParseError.UuidParseError, (Option.some.inj h).symm⟩
          | some u =>
            rw [h4] at h
            cases h5 : weekdayTryFrom r.day_id with
            | none =>
              rw [h5] at h
              exact ⟨ScheduleParseError.DayOfWeekError, (Option.some.inj h).symm⟩
            | some wd =>
              rw [h5] at h
              cases h6 : parseTimeFixedFmt r.start_time with
              | none =>
                rw [h6] at h
                exact ⟨ScheduleParseError.TimeParseError, (Option.some.inj h).symm⟩
              | some st =>
                rw [h6] at h
                cases h7 : parseTimeFixedFmt r.end_time with
                | none =>
                  rw [h7] at h
                  exact ⟨ScheduleParseError.TimeParseError, (Option.some.inj h).symm⟩
                | some et =>
                  exfalso
                  rcases hfail with hu | hd | hs | he
                  · rw [h4] at hu; exact absurd hu (by simp)
                  · rw [weekdayTryFrom_ge7 hd] at h5; exact absurd h5 (by simp)
                  · rw [h6] at hs; exact absurd hs (by simp)
                  · rw [h7] at he; exact absurd he (by simp)
  · intro today good r rest e res hgood hr h
    rw [scheduleDeserialize] at h
    simp only [Option.bind_eq_bind] at h
    cases hs : Schedule.fromDate today with
    | none => rw [hs] at h; simp at h
    | some sched =>
      rw [hs, Option.some_bind] at h
      exact placeAll_first_error good sched r rest e res hgood hr h

/-- C5 witness: a batch of the valid sample record followed by a record
with an unparseable guid deserializes to exactly the UUID parse error. -/
theorem parse_failures_fail_fast_witness :
    ∀ res, scheduleDeserialize ⟨2024, 91⟩
      ([sampleRawOccasion] ++ { sampleRawOccasion with
        guid := "nope" } :: []) = some res →
      res = Except.error ScheduleParseError.UuidParseError := by
  intro res hres
  have hok : (occasionTryFrom sampleRawOccasion).map exceptIsOk = some true := by decide
  refine parse_failures_fail_fast.2 ⟨2024, 91⟩ [sampleRawOccasion] _ [] _ res ?_ ?_ hres
  · intro g hg
    have hgs : g = sampleRawOccasion := by simpa using hg
    subst hgs
    cases ho : occasionTryFrom sampleRawOccasion with
    | none => rw [ho] at hok; simp at hok
    | some res2 =>
      cases res2 with
      | error e2 => rw [ho] at hok; simp [exceptIsOk] at hok
      | ok occ => exact ⟨occ, rfl⟩
  · decide
